import Mathlib

/-!
Verification of the retrieval and result-fusion engine of the `rag` repository.

The development shallowly embeds three pieces of the source:

* `_merge_hits` (src/full/qa_cli.py, src/full_qdrant/qa_cli.py and
  src/rasa_rag/actions/actions.py carry the same definition) — result fusion
  over dictionaries with `id`, `score` and payload fields;
* `_mmr` (src/actions/retriever.py and src/rasa_rag/actions/retriever.py,
  identical) — greedy Maximal Marginal Relevance selection of row indices;
* `search_hybrid` (same two files) — the post-processing of an index
  response: vector extraction, candidate-matrix assembly and MMR selection.

Modelling conventions.  Python floats are modelled exactly: finite values as
rationals (`ℚ`), together with the three non-finite values `inf`, `-inf` and
`nan`, with Python's comparison semantics (`nan` compares false to
everything).  Dictionary values that can reach the `id`/`score` fields are
modelled by `HVal` (None, strings, ints, floats).  Python's `dict` preserves
insertion order and keeps a key's original position on value replacement; it
is modelled by an association list updated in place.  `max(iterable, key=f)`
and `np.argmax` return the first element attaining the maximum; CPython's
iteration order over a `set` built from `range(n)` with only removals is
ascending (small non-negative ints hash to themselves and removal keeps the
order of the remaining elements), so the available-index set of `_mmr` is
modelled by a strictly ascending list.  `str` applied to a float is rendered
through an injective tag that never collides with `str` of an int, matching
Python (a float's `str` always contains a dot, an exponent or a letter).
`sorted(..., reverse=True)` is modelled by CPython's own `list.sort`
algorithm in its no-merge regime: the list is reversed, the maximal initial
run is detected exactly as `count_run` does (an ascending run extends while
`a[k] < a[k-1]` is false, a strictly descending run is reversed in place),
the remaining elements are inserted by `binarysort`'s bisection comparing
`pivot < a[mid]` at `mid = (l + r) / 2`, and the result is reversed again.
Timsort performs no merge below 64 elements, so this is exact there — in
particular on every `nan`-carrying input this file evaluates — and for
`nan`-free keys it is exact at every length, because both it and Timsort
are stable sorts of a total preorder.  Raising code is modelled with
`Except`.
-/

/-- A Python float value: a finite rational or one of the non-finite values. -/
inductive FloatQ where
  | fin (q : ℚ)
  | inf
  | negInf
  | nan
deriving DecidableEq, Repr

/-- Python's `>` on floats: `nan` compares false against everything. -/
def fgt : FloatQ → FloatQ → Bool
  | .nan, _ => false
  | _, .nan => false
  | .inf, .inf => false
  | .inf, _ => true
  | _, .inf => false
  | .fin a, .fin b => a > b
  | .fin _, .negInf => true
  | .negInf, _ => false

/-- Values that can sit in the `id` / `score` fields of a hit dictionary. -/
inductive HVal where
  | vNone
  | vStr (s : String)
  | vInt (n : ℤ)
  | vFloat (f : FloatQ)
deriving DecidableEq, Repr

/-- `isinstance(x, (int, float))` on an `HVal`. -/
def isNumeric : HVal → Bool
  | .vInt _ => true
  | .vFloat _ => true
  | _ => false

/-- `float(x)` for a numeric `HVal` (only ever applied to numeric values). -/
def pyFloat : HVal → FloatQ
  | .vInt n => .fin n
  | .vFloat f => f
  | _ => .nan

/-- Rendering of a `FloatQ` by `str`; the exact digits of Python's float
formatting are abstracted, but the image is disjoint from `str` of ints and
carries a distinguishing prefix, as in Python a float's `str` always
contains a non-digit character. -/
def floatStr : FloatQ → String
  | .fin q => "float:" ++ toString q
  | .inf => "inf"
  | .negInf => "-inf"
  | .nan => "nan"

/-- Python's `str` applied to an `HVal`; `str(7) = "7"` coincides with the
string `"7"`, which is what drives deduplication across types. -/
def pyStr : HVal → String
  | .vNone => "None"
  | .vStr s => s
  | .vInt n => toString n
  | .vFloat f => floatStr f

/-- A retriever hit dictionary: `id` and `score` entries plus an opaque
payload distinguishing otherwise equal records. -/
structure Hit where
  id : HVal
  score : HVal
  payload : String
deriving DecidableEq, Repr

/-- The validity test of `_merge_hits`: the id is present and the score is an
int or float instance. -/
def hitValid (h : Hit) : Bool :=
  !(h.id = HVal.vNone) && isNumeric h.score

/-- `float(stored.get("score", float("-inf")))` — the kept entry's score with
the `-inf` default for an absent key. -/
def storedScoreF (h : Hit) : FloatQ :=
  if h.score = HVal.vNone then .negInf else pyFloat h.score

/-- In-place update of an association list: an existing key keeps its
position (as a Python `dict` does), a new key is appended. -/
def updAssoc (k : String) (v : Hit) : List (String × Hit) → List (String × Hit)
  | [] => [(k, v)]
  | (k', v') :: rest => if k' = k then (k, v) :: rest else (k', v') :: updAssoc k v rest

/-- Lookup in the association list modelling `by_id`. -/
def lookupAssoc (k : String) : List (String × Hit) → Option Hit
  | [] => none
  | (k', v) :: rest => if k' = k then some v else lookupAssoc k rest

/-- One iteration of the `_merge_hits` loop body. -/
def mergeStep (acc : List (String × Hit)) (hit : Hit) : List (String × Hit) :=
  if hit.id = HVal.vNone then acc
  else if !(isNumeric hit.score) then acc
  else
    let key := pyStr hit.id
    match lookupAssoc key acc with
    | none => updAssoc key hit acc
    | some stored =>
        if fgt (pyFloat hit.score) (storedScoreF stored) then updAssoc key hit acc else acc

/-- The `by_id` dictionary after the `_merge_hits` loop. -/
def buildById (hits : List Hit) : List (String × Hit) :=
  hits.foldl mergeStep []

/-- Flattening of the variadic `*hit_groups` argument, groups in the order
given, each group in sequence order. -/
def concatAll : List (List Hit) → List Hit
  | [] => []
  | g :: gs => g ++ concatAll gs

/-- The kept entries, in dictionary insertion order (`by_id.values()`). -/
def keptValues (hits : List Hit) : List Hit :=
  (buildById hits).map Prod.snd

/-- Python's `<` on floats: `a < b`; `nan` compares false to everything. -/
def flt (a b : FloatQ) : Bool := fgt b a

/-- Placeholder hit for out-of-range list indexing; the bisection only ever
reads indices below the list length. -/
def dummyHit : Hit := ⟨HVal.vNone, HVal.vNone, ""⟩

/-- The ascending continuation of a run, as CPython's `count_run` scans it:
keep taking elements while `a[k] < a[k-1]` is false. -/
def ascRun : Hit → List Hit → List Hit × List Hit
  | _, [] => ([], [])
  | prev, x :: xs =>
      if flt (pyFloat x.score) (pyFloat prev.score) then ([], x :: xs)
      else (x :: (ascRun x xs).1, (ascRun x xs).2)

/-- The strictly descending continuation of a run: keep taking elements
while `a[k] < a[k-1]` holds. -/
def descRun : Hit → List Hit → List Hit × List Hit
  | _, [] => ([], [])
  | prev, x :: xs =>
      if flt (pyFloat x.score) (pyFloat prev.score) then
        (x :: (descRun x xs).1, (descRun x xs).2)
      else ([], x :: xs)

/-- CPython `count_run`: the maximal initial ascending run; a strictly
descending initial run is reversed in place. -/
def initialRun : List Hit → List Hit × List Hit
  | [] => ([], [])
  | [a] => ([a], [])
  | a :: b :: rest =>
      if flt (pyFloat b.score) (pyFloat a.score) then
        ((a :: b :: (descRun b rest).1).reverse, (descRun b rest).2)
      else (a :: b :: (ascRun b rest).1, (ascRun b rest).2)

/-- The bisection of CPython's `binarysort`: narrow `[p, r)` by comparing
`pivot < a[mid]` at `mid = (p + r) / 2`; `fuel` dominates `r - p`. -/
def bisectGo (key : FloatQ) (a : List Hit) : Nat → Nat → Nat → Nat
  | 0, p, _ => p
  | fuel + 1, p, r =>
      if p < r then
        if flt key (pyFloat (a.getD ((p + r) / 2) dummyHit).score) then
          bisectGo key a fuel p ((p + r) / 2)
        else bisectGo key a fuel ((p + r) / 2 + 1) r
      else p

/-- Binary insertion of one element at the bisection position. -/
def binInsert (x : Hit) (sorted : List Hit) : List Hit :=
  sorted.take (bisectGo (pyFloat x.score) sorted sorted.length 0 sorted.length) ++
    x :: sorted.drop (bisectGo (pyFloat x.score) sorted sorted.length 0 sorted.length)

/-- `binarysort`: binary-insert each remaining element in order. -/
def binsortGo : List Hit → List Hit → List Hit
  | sorted, [] => sorted
  | sorted, x :: rest => binsortGo (binInsert x sorted) rest

/-- CPython `list.sort` (ascending) in the no-merge regime: detect the
initial run, then binary-insert the rest. -/
def pySortAsc (l : List Hit) : List Hit :=
  binsortGo (initialRun l).1 (initialRun l).2

/-- `sorted(values, key=lambda h: float(h["score"]), reverse=True)`: CPython
implements the `reverse` flag by reversing before and after an ascending
sort. -/
def pySortDesc (l : List Hit) : List Hit :=
  (pySortAsc l.reverse).reverse

/-- `_merge_hits(*hit_groups, limit)`. -/
def mergeHits (groups : List (List Hit)) (limit : Nat) : List Hit :=
  (pySortDesc (keptValues (concatAll groups))).take limit

/-! ### Spec-side reference for the per-id keep/replace behaviour -/

/-- One step of the per-id reference fold: keep the first entry, replace the
kept one only when the new score strictly exceeds it. -/
def keepStep (acc : Option Hit) (h : Hit) : Option Hit :=
  match acc with
  | none => some h
  | some s => if fgt (pyFloat h.score) (storedScoreF s) then some h else some s

/-- Reference fold over the entries of one id. -/
def keepFold (l : List Hit) : Option Hit :=
  l.foldl keepStep none

/-- The valid entries of a flat hit list whose id stringifies to `key`. -/
def keyHits (hits : List Hit) (key : String) : List Hit :=
  hits.filter (fun h => hitValid h && (pyStr h.id = key))

/-! ### The MMR selector -/

/-- A dense vector, exact-arithmetic model of a `float32` row. -/
abbrev Vec := List ℚ

/-- Dot product of two vectors. -/
def dotQ (u v : Vec) : ℚ := (List.zipWith (· * ·) u v).sum

/-- `rel[i] = (C @ q)[i]`, the relevance of row `i`. -/
def relQ (C : List Vec) (q : Vec) (i : Nat) : ℚ := dotQ (C.getD i []) q

/-- `div.max(axis=0)[j]`: the largest similarity of candidate `j` to an
already-selected row (the selected list is nonempty whenever this is read). -/
def maxDivQ (C : List Vec) (sel : List Nat) (j : Nat) : ℚ :=
  match sel with
  | [] => 0
  | s :: rest =>
      rest.foldl (fun a s2 => max a (dotQ (C.getD j []) (C.getD s2 [])))
        (dotQ (C.getD j []) (C.getD s []))

/-- `mmr[j] = lam * rel[j] - (1 - lam) * max_div[j]`. -/
def mmrScore (C : List Vec) (q : Vec) (lam : ℚ) (sel : List Nat) (j : Nat) : ℚ :=
  lam * relQ C q j - (1 - lam) * maxDivQ C sel j

/-- Tail of Python's `max(iterable, key=f)`: keep the current best, replace
only on a strictly larger key, so the first maximum survives. -/
def pyMaxAux (f : Nat → ℚ) (best : Nat) : List Nat → Nat
  | [] => best
  | x :: xs => if f x > f best then pyMaxAux f x xs else pyMaxAux f best xs

/-- Python's `max(l, key=f)`, `none` on the empty iterable; `np.argmax` over
an array of length `n` is `pyMax f (List.range n)`. -/
def pyMax (f : Nat → ℚ) : List Nat → Option Nat
  | [] => none
  | x :: xs => some (pyMaxAux f x xs)

/-- The loop of `_mmr`: `fuel` remaining iterations, `sel` the selected
indices in pick order, `avail` the unselected indices in CPython's (here:
ascending) iteration order. -/
def mmrGo (C : List Vec) (q : Vec) (lam : ℚ) :
    Nat → List Nat → List Nat → List Nat
  | 0, sel, _ => sel
  | Nat.succ fuel, sel, avail =>
    match sel with
    | [] =>
        match pyMax (relQ C q) (List.range C.length) with
        | none => sel
        | some i => mmrGo C q lam fuel (sel ++ [i]) (avail.erase i)
    | _ :: _ =>
        match pyMax (mmrScore C q lam sel) avail with
        | none => sel
        | some i => mmrGo C q lam fuel (sel ++ [i]) (avail.erase i)

/-- `_mmr(q, C, k, lam)`. -/
def mmr (q : Vec) (C : List Vec) (k : Nat) (lam : ℚ) : List Nat :=
  mmrGo C q lam (min k C.length) [] (List.range C.length)

/-! ### Spec-side reference MMR: iteration-order-independent argmax -/

/-- `j` attains the maximum of `f` over the list `l`. -/
def isMaxIn (f : Nat → ℚ) (l : List Nat) (j : Nat) : Bool :=
  l.all (fun j2 => f j2 ≤ f j)

/-- Minimum of a list of naturals. -/
def listMinN : List Nat → Option Nat
  | [] => none
  | x :: xs => some (xs.foldl Nat.min x)

/-- The lowest index among the maximisers of `f` over `l`: the spec's
"argmax, ties broken by the lowest index", defined so that its value depends
only on the membership of `l`, not on any iteration order. -/
def lowMax (f : Nat → ℚ) (l : List Nat) : Option Nat :=
  listMinN (l.filter (isMaxIn f l))

/-- The claim-side MMR loop, stated from the spec's words: each pick is the
lowest-index argmax (of `rel` for the first pick, of the MMR score over the
unselected set afterwards). -/
def mmrSpecGo (C : List Vec) (q : Vec) (lam : ℚ) :
    Nat → List Nat → List Nat → List Nat
  | 0, sel, _ => sel
  | Nat.succ fuel, sel, avail =>
    match sel with
    | [] =>
        match lowMax (relQ C q) (List.range C.length) with
        | none => sel
        | some i => mmrSpecGo C q lam fuel (sel ++ [i]) (avail.erase i)
    | _ :: _ =>
        match lowMax (mmrScore C q lam sel) avail with
        | none => sel
        | some i => mmrSpecGo C q lam fuel (sel ++ [i]) (avail.erase i)

/-- The claim-side MMR selector. -/
def mmrSpec (q : Vec) (C : List Vec) (k : Nat) (lam : ℚ) : List Nat :=
  mmrSpecGo C q lam (min k C.length) [] (List.range C.length)

/-! ### `search_hybrid` post-processing of the index response -/

/-- The `vector` attribute of a scored point returned by the index client: a
plain vector, a dict of named vectors, or absent (`None`). -/
inductive VecField where
  | plain (v : Vec)
  | named (entries : List (String × Vec))
  | missing
deriving DecidableEq, Repr

/-- A record of the index response. -/
structure ScoredPoint where
  id : HVal
  vector : VecField
  payload : Option String
  score : ℚ
deriving DecidableEq, Repr

/-- An output record of `search_hybrid`. -/
structure SelectedResult where
  id : String
  score : ℚ
  payload : String
deriving DecidableEq, Repr

/-- Dict lookup among named vectors. -/
def lookupVec (k : String) : List (String × Vec) → Option Vec
  | [] => none
  | (k', v) :: rest => if k' = k then some v else lookupVec k rest

/-- First value of the named-vector dict (`next(iter(d.values()))`), raising
`StopIteration` on an empty dict. -/
def firstNamed : List (String × Vec) → Except String Vec
  | [] => .error "StopIteration"
  | (_, v) :: _ => .ok v

/-- `r.vector if not isinstance(r.vector, dict) else (r.vector.get("dense")
or next(iter(r.vector.values())))`, followed by the `np.asarray(..,
float32)` conversion: a `None` vector raises, a dict falls back to its first
value when it has no (or a falsy, i.e. empty) `"dense"` entry. -/
def extractVec : VecField → Except String Vec
  | .plain v => .ok v
  | .missing => .error "TypeError: float() argument is NoneType"
  | .named entries =>
      match lookupVec "dense" entries with
      | some v => if v = [] then firstNamed entries else .ok v
      | none => firstNamed entries

/-- The extraction loop over the whole response; the first failure aborts. -/
def extractAll : List ScoredPoint → Except String (List Vec)
  | [] => .ok []
  | r :: rs =>
      match extractVec r.vector with
      | .error e => .error e
      | .ok v =>
          match extractAll rs with
          | .error e => .error e
          | .ok vs => .ok (v :: vs)

/-- `search_hybrid` from the point where the index response `res` is in
hand: the empty-response guard, the extraction loop (`str(r.id)`,
`r.payload or {}`, `float(r.score)`), the `np.vstack` / `C @ q` shape
requirement, the MMR call and the output shaping. -/
def searchHybridFrom (q : Vec) (res : List ScoredPoint) (topk : Nat) (lam : ℚ) :
    Except String (List SelectedResult) :=
  if res.isEmpty then .ok []
  else
    match extractAll res with
    | .error e => .error e
    | .ok C =>
        if C.all (fun v => v.length = q.length) then
          let ids := res.map (fun r => pyStr r.id)
          let payloads := res.map (fun r => r.payload.getD "")
          let scores := res.map (fun r => r.score)
          let idx := mmr q C topk lam
          .ok (idx.map (fun i =>
            { id := ids.getD i "", score := scores.getD i 0, payload := payloads.getD i "" }))
        else .error "ValueError: vector shape mismatch"

/-- Success discriminator with the payload length, used to state that a call
returns (no exception) with a result of a given length. -/
def okLength (e : Except String (List SelectedResult)) : Option Nat :=
  match e with
  | .ok l => some l.length
  | .error _ => none

/-- A record's vector extracts successfully to a vector of length `n`. -/
def vecOkLen (n : Nat) (vf : VecField) : Bool :=
  match extractVec vf with
  | .ok v => v.length = n
  | .error _ => false

/-- A score value is a finite number (what the spec calls "finite"):
an int, or a float that is neither infinite nor `nan`. -/
def isFiniteScore : HVal → Bool
  | .vInt _ => true
  | .vFloat (.fin _) => true
  | _ => false

/-! ### Derived predicates and concrete example data -/

/-- `b ≥ a` in the replace-only-on-strict sense. -/
def fge (b a : FloatQ) : Prop := b = a ∨ fgt b a = true

/-- `i` strictly precedes `j` in the relevance ranking: strictly larger
relevance, or equal relevance and a lower original index. -/
def relBetter (C : List Vec) (q : Vec) (i j : Nat) : Prop :=
  relQ C q j < relQ C q i ∨ (relQ C q i = relQ C q j ∧ i < j)

/-- Non-strict descending order of two hits by sort key. -/
def hitDescP (a b : Hit) : Prop := fgt (pyFloat b.score) (pyFloat a.score) = false

/-- Non-strict ascending order of two hits by sort key. -/
def hitAscP (a b : Hit) : Prop := fgt (pyFloat a.score) (pyFloat b.score) = false

/-- Strict descending order of two hits by sort key. -/
def hitSgtP (a b : Hit) : Prop := fgt (pyFloat a.score) (pyFloat b.score) = true

/-- Example hit `{"id": "X", "score": 0.3}` of the fusion scenario. -/
def hitX3 : Hit := ⟨.vStr "X", .vFloat (.fin (3/10)), "primary"⟩

/-- Example hit `{"id": "X", "score": 0.9}` of the fusion scenario. -/
def hitX9 : Hit := ⟨.vStr "X", .vFloat (.fin (9/10)), "secondary"⟩

/-- Example hit `{"id": "Y", "score": 0.2}` of the fusion scenario. -/
def hitY2 : Hit := ⟨.vStr "Y", .vFloat (.fin (1/5)), "secondary"⟩

/-- Example hit `{"id": "A", "score": 0.4}` of the malformed-entry scenario. -/
def hitA4 : Hit := ⟨.vStr "A", .vFloat (.fin (2/5)), "pa"⟩

/-- Example hit `{"id": None, "score": 0.9}`. -/
def hitNone9 : Hit := ⟨.vNone, .vFloat (.fin (9/10)), "pn"⟩

/-- Example hit `{"id": "C", "score": "bad"}`. -/
def hitCbad : Hit := ⟨.vStr "C", .vStr "bad", "pc"⟩

/-- Example hit `{"id": "A", "score": float("inf")}`. -/
def hitAinf : Hit := ⟨.vStr "A", .vFloat .inf, "pinf"⟩

/-- Example hit `{"id": 7, "score": 0.5}` with an integer id. -/
def hitSevenInt : Hit := ⟨.vInt 7, .vFloat (.fin (1/2)), "int-id"⟩

/-- Example hit `{"id": "7", "score": 0.5}` with a string id. -/
def hitSevenStr : Hit := ⟨.vStr "7", .vFloat (.fin (1/2)), "str-id"⟩

/-- Example index record with a plain vector. -/
def spGood : ScoredPoint := ⟨.vInt 3, .plain [1, 0], some "pay", 7/10⟩

/-- Example index record with a second plain vector. -/
def spGood2 : ScoredPoint := ⟨.vStr "b", .plain [0, 1], none, 1/2⟩

/-- Example malformed index record: its `vector` attribute is `None`. -/
def spBad : ScoredPoint := ⟨.vStr "m", .missing, none, 3/5⟩

/-- Example hit `{"id": "A", "score": 1.0}` of the `nan`-sorting scenario. -/
def hitAone : Hit := ⟨.vStr "A", .vFloat (.fin 1), "p1"⟩

/-- Example hit `{"id": "B", "score": float("nan")}`. -/
def hitBnan : Hit := ⟨.vStr "B", .vFloat .nan, "p2"⟩

/-- Example hit `{"id": "C", "score": 3.0}`. -/
def hitCthree : Hit := ⟨.vStr "C", .vFloat (.fin 3), "p3"⟩

/-! ### Order facts about `fgt` -/

theorem fgt_irrefl (x : FloatQ) : fgt x x = false := by
  cases x <;> simp [fgt]

theorem fgt_asymm {x y : FloatQ} (h : fgt x y = true) : fgt y x = false := by
  cases x <;> cases y <;> (simp_all [fgt]; try linarith)

theorem fgt_trans {x y z : FloatQ} (h1 : fgt x y = true) (h2 : fgt y z = true) :
    fgt x z = true := by
  cases x <;> cases y <;> cases z <;> (simp_all [fgt]; try linarith)

theorem fge_refl (a : FloatQ) : fge a a := Or.inl rfl

theorem not_fgt_of_fge {b a x : FloatQ} (hba : fge b a) (hxa : fgt x a = false) :
    fgt x b = false := by
  cases hba with
  | inl h => simpa [h]
  | inr h =>
      by_contra hx
      have hx' : fgt x b = true := by
        cases hfxb : fgt x b
        · exact absurd hfxb hx
        · rfl
      have := fgt_trans hx' h
      simp [this] at hxa

theorem fge_trans {c b a : FloatQ} (h1 : fge c b) (h2 : fge b a) : fge c a := by
  cases h1 with
  | inl h => cases h2 with
    | inl h' => exact Or.inl (h ▸ h')
    | inr h' => exact Or.inr (h ▸ h')
  | inr h => cases h2 with
    | inl h' => exact Or.inr (h' ▸ h)
    | inr h' => exact Or.inr (fgt_trans h h')

/-! ### Characterisation of Python's first-maximum and the spec's lowest-index argmax -/

theorem pyMaxAux_mem (f : Nat → ℚ) : ∀ (l : List Nat) (b : Nat), pyMaxAux f b l ∈ b :: l := by
  intro l
  induction l with
  | nil => intro b; simp [pyMaxAux]
  | cons x xs ih =>
      intro b
      by_cases h : f x > f b
      · have := ih x
        simp only [pyMaxAux, if_pos h]
        rcases List.mem_cons.mp this with h' | h'
        · simp [h']
        · simp [List.mem_cons, h']
      · have := ih b
        simp only [pyMaxAux, if_neg h]
        rcases List.mem_cons.mp this with h' | h'
        · simp [h']
        · simp [List.mem_cons, h']

theorem pyMaxAux_char (f : Nat → ℚ) :
    ∀ (l : List Nat) (b : Nat), List.Pairwise (· < ·) l → (∀ y ∈ l, b < y) →
      (∀ y ∈ b :: l, f y ≤ f (pyMaxAux f b l)) ∧
      (∀ y ∈ b :: l, f y = f (pyMaxAux f b l) → pyMaxAux f b l ≤ y) := by
  intro l
  induction l with
  | nil =>
      intro b _ _
      constructor
      · intro y hy; simp at hy; simp [pyMaxAux, hy]
      · intro y hy _; simp at hy; simp [pyMaxAux, hy]
  | cons x xs ih =>
      intro b hpw hlt
      have hpw' : List.Pairwise (· < ·) xs := hpw.of_cons
      have hxlt : ∀ y ∈ xs, x < y := fun y hy => (List.pairwise_cons.mp hpw).1 y hy
      by_cases h : f x > f b
      · have hblt : b < x := hlt x (by simp)
        obtain ⟨hmax, hleast⟩ := ih x hpw' hxlt
        simp only [pyMaxAux, if_pos h]
        constructor
        · intro y hy
          rcases List.mem_cons.mp hy with rfl | hy'
          · exact le_of_lt (lt_of_lt_of_le h (hmax x (by simp)))
          · exact hmax y hy'
        · intro y hy hfy
          rcases List.mem_cons.mp hy with rfl | hy'
          · exfalso
            have : f y < f (pyMaxAux f x xs) := lt_of_lt_of_le h (hmax x (by simp))
            exact absurd hfy (ne_of_lt this)
          · exact hleast y hy' hfy
      · have hble : f x ≤ f b := le_of_not_lt h
        have hblt' : ∀ y ∈ xs, b < y := fun y hy => hlt y (by simp [hy])
        obtain ⟨hmax, hleast⟩ := ih b hpw' hblt'
        simp only [pyMaxAux, if_neg h]
        constructor
        · intro y hy
          rcases List.mem_cons.mp hy with rfl | hy'
          · exact hmax y (by simp)
          rcases List.mem_cons.mp hy' with rfl | hy''
          · exact le_trans hble (hmax b (by simp))
          · exact hmax y (by simp [hy''])
        · intro y hy hfy
          rcases List.mem_cons.mp hy with rfl | hy'
          · exact hleast y (by simp) hfy
          rcases List.mem_cons.mp hy' with rfl | hy''
          · -- `y = x`; then `f b = f (max)` and the result is at most `b < x`
            have hfb : f b ≤ f (pyMaxAux f b xs) := hmax b (by simp)
            have hfbeq : f b = f (pyMaxAux f b xs) := le_antisymm hfb (hfy ▸ hble)
            have := hleast b (by simp) hfbeq
            exact le_of_lt (lt_of_le_of_lt this (hlt y (by simp)))
          · exact hleast y (by simp [hy'']) hfy

theorem pyMax_mem {f : Nat → ℚ} {l : List Nat} {m : Nat} (h : pyMax f l = some m) :
    m ∈ l := by
  cases l with
  | nil => simp [pyMax] at h
  | cons x xs =>
      simp only [pyMax, Option.some_inj] at h
      subst h
      exact pyMaxAux_mem f xs x

theorem pyMax_char {f : Nat → ℚ} {l : List Nat} (hpw : List.Pairwise (· < ·) l) {m : Nat}
    (h : pyMax f l = some m) :
    m ∈ l ∧ (∀ y ∈ l, f y ≤ f m) ∧ (∀ y ∈ l, f y = f m → m ≤ y) := by
  cases l with
  | nil => simp [pyMax] at h
  | cons x xs =>
      simp only [pyMax, Option.some_inj] at h
      subst h
      have hpw' : List.Pairwise (· < ·) xs := hpw.of_cons
      have hxlt : ∀ y ∈ xs, x < y := fun y hy => (List.pairwise_cons.mp hpw).1 y hy
      obtain ⟨hmax, hleast⟩ := pyMaxAux_char f xs x hpw' hxlt
      exact ⟨pyMaxAux_mem f xs x, hmax, hleast⟩

theorem pyMax_eq_none_iff {f : Nat → ℚ} {l : List Nat} : pyMax f l = none ↔ l = [] := by
  cases l <;> simp [pyMax]

theorem listMinN_foldl_spec :
    ∀ (xs : List Nat) (x : Nat),
      xs.foldl Nat.min x ∈ x :: xs ∧ ∀ y ∈ x :: xs, xs.foldl Nat.min x ≤ y := by
  intro xs
  induction xs with
  | nil => intro x; constructor
           · simp
           · intro y hy; simp at hy; simp [hy]
  | cons z zs ih =>
      intro x
      obtain ⟨hmem, hle⟩ := ih (Nat.min x z)
      constructor
      · simp only [List.foldl_cons]
        rcases List.mem_cons.mp hmem with h | h
        · have hminor : Nat.min x z = x ∨ Nat.min x z = z := by
            by_cases hxz : x ≤ z
            · exact Or.inl (Nat.min_eq_left hxz)
            · exact Or.inr (Nat.min_eq_right (le_of_not_le hxz))
          rcases hminor with h' | h' <;> rw [h, h'] <;> simp
        · simp [List.mem_cons, h]
      · intro y hy
        simp only [List.foldl_cons]
        rcases List.mem_cons.mp hy with rfl | hy'
        · exact le_trans (hle (Nat.min y z) (by simp)) (Nat.min_le_left y z)
        rcases List.mem_cons.mp hy' with rfl | hy''
        · exact le_trans (hle (Nat.min x y) (by simp)) (Nat.min_le_right x y)
        · exact hle y (by simp [hy''])

theorem listMinN_eq_some_iff {l : List Nat} {m : Nat} :
    listMinN l = some m ↔ m ∈ l ∧ ∀ y ∈ l, m ≤ y := by
  cases l with
  | nil => simp [listMinN]
  | cons x xs =>
      obtain ⟨hmem, hle⟩ := listMinN_foldl_spec xs x
      constructor
      · intro h
        simp only [listMinN, Option.some_inj] at h
        subst h
        exact ⟨hmem, hle⟩
      · rintro ⟨hm, hlb⟩
        simp only [listMinN, Option.some_inj]
        exact le_antisymm (hle m hm) (hlb _ hmem)

theorem lowMax_eq_some_iff {f : Nat → ℚ} {l : List Nat} {m : Nat} :
    lowMax f l = some m ↔
      m ∈ l ∧ (∀ y ∈ l, f y ≤ f m) ∧ (∀ y ∈ l, f y = f m → m ≤ y) := by
  unfold lowMax
  rw [listMinN_eq_some_iff]
  constructor
  · rintro ⟨hm, hlb⟩
    have hm' := List.mem_filter.mp hm
    have hmax : ∀ y ∈ l, f y ≤ f m := by
      have := hm'.2
      simpa [isMaxIn, List.all_eq_true] using this
    refine ⟨hm'.1, hmax, ?_⟩
    intro y hy hfy
    apply hlb
    refine List.mem_filter.mpr ⟨hy, ?_⟩
    simp only [isMaxIn, List.all_eq_true, decide_eq_true_eq]
    intro z hz
    exact hfy ▸ hmax z hz
  · rintro ⟨hm, hmax, hleast⟩
    constructor
    · refine List.mem_filter.mpr ⟨hm, ?_⟩
      simp only [isMaxIn, List.all_eq_true, decide_eq_true_eq]
      exact hmax
    · intro y hy
      have hy' := List.mem_filter.mp hy
      have hymax : ∀ z ∈ l, f z ≤ f y := by
        have := hy'.2
        simpa [isMaxIn, List.all_eq_true] using this
      exact hleast y hy'.1 (le_antisymm (hmax y hy'.1) (hymax m hm))

theorem exists_listMax (f : Nat → ℚ) :
    ∀ (xs : List Nat) (x : Nat), ∃ m ∈ x :: xs, ∀ y ∈ x :: xs, f y ≤ f m := by
  intro xs
  induction xs with
  | nil => intro x; exact ⟨x, by simp⟩
  | cons z zs ih =>
      intro x
      obtain ⟨m, hm, hle⟩ := ih z
      rcases le_total (f m) (f x) with hc | hc
      · refine ⟨x, by simp, ?_⟩
        intro y hy
        rcases List.mem_cons.mp hy with rfl | hy'
        · exact le_refl _
        · exact le_trans (hle y hy') hc
      · refine ⟨m, by simp [List.mem_cons.mp hm], ?_⟩
        intro y hy
        rcases List.mem_cons.mp hy with rfl | hy'
        · exact hc
        · exact hle y hy'

theorem lowMax_eq_none_iff {f : Nat → ℚ} {l : List Nat} : lowMax f l = none ↔ l = [] := by
  constructor
  · intro h
    by_contra hne
    obtain ⟨x, xs, rfl⟩ := List.exists_cons_of_ne_nil hne
    obtain ⟨m, hm, hle⟩ := exists_listMax f xs x
    have hmemf : m ∈ (x :: xs).filter (isMaxIn f (x :: xs)) := by
      refine List.mem_filter.mpr ⟨hm, ?_⟩
      simp only [isMaxIn, List.all_eq_true, decide_eq_true_eq]
      exact hle
    unfold lowMax at h
    rcases hfilter : (x :: xs).filter (isMaxIn f (x :: xs)) with _ | ⟨a, as⟩
    · rw [hfilter] at hmemf; simp at hmemf
    · rw [hfilter] at h; simp [listMinN] at h
  · rintro rfl; rfl

theorem pyMax_eq_lowMax (f : Nat → ℚ) {l : List Nat} (hpw : List.Pairwise (· < ·) l) :
    pyMax f l = lowMax f l := by
  rcases hp : pyMax f l with _ | m
  · rw [pyMax_eq_none_iff] at hp
    subst hp
    rfl
  · obtain ⟨hm, hmax, hleast⟩ := pyMax_char hpw hp
    exact (lowMax_eq_some_iff.mpr ⟨hm, hmax, hleast⟩).symm

theorem lowMax_perm (f : Nat → ℚ) {l l' : List Nat} (h : l.Perm l') :
    lowMax f l = lowMax f l' := by
  have hpred : ∀ j, isMaxIn f l j = isMaxIn f l' j := by
    intro j
    unfold isMaxIn
    rw [Bool.eq_iff_iff, List.all_eq_true, List.all_eq_true]
    constructor
    · intro H y hy; exact H y (h.mem_iff.mpr hy)
    · intro H y hy; exact H y (h.mem_iff.mp hy)
  have hfilters : (l.filter (isMaxIn f l)).Perm (l'.filter (isMaxIn f l')) := by
    have h1 : l'.filter (isMaxIn f l') = l'.filter (isMaxIn f l) :=
      List.filter_congr (fun x _ => (hpred x).symm)
    rw [h1]
    exact h.filter (isMaxIn f l)
  rcases hm : listMinN (l.filter (isMaxIn f l)) with _ | m
  · unfold lowMax
    rw [hm]
    rcases hfil : l'.filter (isMaxIn f l') with _ | ⟨a, as⟩
    · rfl
    · exfalso
      rw [hfil] at hfilters
      rcases hfil2 : l.filter (isMaxIn f l) with _ | ⟨b, bs⟩
      · rw [hfil2] at hfilters; exact absurd hfilters.symm (by simp)
      · rw [hfil2] at hm; simp [listMinN] at hm
  · obtain ⟨hmem, hlb⟩ := listMinN_eq_some_iff.mp hm
    unfold lowMax
    rw [hm]
    symm
    rw [listMinN_eq_some_iff]
    exact ⟨hfilters.mem_iff.mp hmem, fun y hy => hlb y (hfilters.mem_iff.mpr hy)⟩

/-! ### The `_mmr` loop refines the spec-side selector -/

theorem mmrGo_eq_spec (C : List Vec) (q : Vec) (lam : ℚ) :
    ∀ (fuel : Nat) (sel avail : List Nat), List.Pairwise (· < ·) avail →
      mmrGo C q lam fuel sel avail = mmrSpecGo C q lam fuel sel avail := by
  intro fuel
  induction fuel with
  | zero => intro sel avail _; rfl
  | succ fuel ih =>
      intro sel avail hpw
      cases sel with
      | nil =>
          simp only [mmrGo, mmrSpecGo]
          rw [← pyMax_eq_lowMax (relQ C q) (List.pairwise_lt_range _)]
          cases pyMax (relQ C q) (List.range C.length) with
          | none => rfl
          | some i =>
              exact ih [i] (avail.erase i) (hpw.sublist (avail.erase_sublist i))
      | cons s0 rest =>
          simp only [mmrGo, mmrSpecGo]
          rw [← pyMax_eq_lowMax (mmrScore C q lam (s0 :: rest)) hpw]
          cases pyMax (mmrScore C q lam (s0 :: rest)) avail with
          | none => rfl
          | some i =>
              exact ih (s0 :: rest ++ [i]) (avail.erase i) (hpw.sublist (avail.erase_sublist i))

/-! ### Shape invariants of the `_mmr` loop -/

theorem mmrGo_props (C : List Vec) (q : Vec) (lam : ℚ) :
    ∀ (fuel : Nat) (sel avail : List Nat),
      sel ≠ [] →
      List.Pairwise (· < ·) avail →
      (∀ j ∈ avail, j < C.length) →
      (∀ j ∈ avail, j ∉ sel) →
      (∀ j ∈ sel, j < C.length) →
      sel.Nodup →
      fuel ≤ avail.length →
      (mmrGo C q lam fuel sel avail).length = sel.length + fuel ∧
      (mmrGo C q lam fuel sel avail).Nodup ∧
      (∀ j ∈ mmrGo C q lam fuel sel avail, j < C.length) ∧
      (∀ j ∈ sel, j ∈ mmrGo C q lam fuel sel avail) := by
  intro fuel
  induction fuel with
  | zero =>
      intro sel avail _ _ _ _ hsel hnd _
      refine ⟨by simp [mmrGo], by simpa [mmrGo] using hnd, ?_, ?_⟩
      · intro j hj; exact hsel j (by simpa [mmrGo] using hj)
      · intro j hj; simpa [mmrGo] using hj
  | succ fuel ih =>
      intro sel avail hne hpw hbound hdisj hselb hnd hfuel
      obtain ⟨s0, rest, rfl⟩ := List.exists_cons_of_ne_nil hne
      have havail : avail ≠ [] := by
        intro h
        rw [h] at hfuel
        simp at hfuel
      rcases hp : pyMax (mmrScore C q lam (s0 :: rest)) avail with _ | m
      · exact absurd (pyMax_eq_none_iff.mp hp) havail
      · have hm : m ∈ avail := pyMax_mem hp
        have hnda : avail.Nodup := hpw.nodup
        have hlen : (avail.erase m).length = avail.length - 1 :=
          List.length_erase_of_mem hm
        have hstep :
            mmrGo C q lam (fuel + 1) (s0 :: rest) avail =
              mmrGo C q lam fuel (s0 :: rest ++ [m]) (avail.erase m) := by
          simp only [mmrGo, hp]
        have hrec := ih (s0 :: rest ++ [m]) (avail.erase m)
          (by simp)
          (hpw.sublist (avail.erase_sublist m))
          (fun j hj => hbound j (List.mem_of_mem_erase hj))
          (by
            intro j hj
            have hj' : j ∈ avail := List.mem_of_mem_erase hj
            have hjne : j ≠ m := (List.Nodup.mem_erase_iff hnda).mp hj |>.1
            intro hmem
            rcases List.mem_append.mp hmem with h1 | h2
            · exact hdisj j hj' h1
            · simp at h2; exact hjne h2)
          (by
            intro j hj
            rcases List.mem_append.mp hj with h1 | h2
            · exact hselb j h1
            · simp at h2; subst h2; exact hbound j hm)
          (by
            refine List.Nodup.append hnd (by simp) ?_
            intro a ha hb
            simp at hb; subst hb
            exact hdisj a hm ha)
          (by omega)
        rw [hstep]
        refine ⟨?_, hrec.2.1, hrec.2.2.1, ?_⟩
        · rw [hrec.1]; simp; omega
        · intro j hj
          exact hrec.2.2.2 j (List.mem_append.mpr (Or.inl hj))

theorem mmr_shape (q : Vec) (C : List Vec) (k : Nat) (lam : ℚ) :
    (mmr q C k lam).length = min k C.length ∧
    (mmr q C k lam).Nodup ∧
    (∀ i ∈ mmr q C k lam, i < C.length) := by
  unfold mmr
  rcases hk : min k C.length with _ | fuel
  · simp [mmrGo, hk]
  · have hn : 0 < C.length := by
      rcases Nat.eq_zero_or_pos C.length with h0 | h0
      · rw [h0] at hk; simp at hk
      · exact h0
    have hfuel : fuel + 1 ≤ C.length := by
      have := Nat.min_le_right k C.length
      omega
    have hrange : List.range C.length ≠ [] := by
      intro h
      have := List.length_range C.length
      rw [h] at this
      simp at this
      omega
    rcases hp : pyMax (relQ C q) (List.range C.length) with _ | i
    · exact absurd (pyMax_eq_none_iff.mp hp) hrange
    · have hi : i ∈ List.range C.length := pyMax_mem hp
      have hilt : i < C.length := List.mem_range.mp hi
      have hnd : (List.range C.length).Nodup := List.nodup_range _
      have hstep :
          mmrGo C q lam (fuel + 1) [] (List.range C.length) =
            mmrGo C q lam fuel [i] ((List.range C.length).erase i) := by
        simp only [mmrGo, hp]
        rfl
      have hrec := mmrGo_props C q lam fuel [i] ((List.range C.length).erase i)
        (by simp)
        ((List.pairwise_lt_range _).sublist ((List.range C.length).erase_sublist i))
        (fun j hj => List.mem_range.mp (List.mem_of_mem_erase hj))
        (by
          intro j hj
          have hjne : j ≠ i := (List.Nodup.mem_erase_iff hnd).mp hj |>.1
          simp [hjne])
        (by intro j hj; simp at hj; subst hj; exact hilt)
        (by simp)
        (by
          rw [List.length_erase_of_mem hi, List.length_range]
          omega)
      rw [hstep]
      refine ⟨?_, hrec.2.1, hrec.2.2.1⟩
      rw [hrec.1]
      simp only [List.length_singleton]
      omega

theorem mmr_perm_range (q : Vec) (C : List Vec) (k : Nat) (lam : ℚ)
    (hk : C.length ≤ k) : (mmr q C k lam).Perm (List.range C.length) := by
  obtain ⟨hlen, hnd, hlt⟩ := mmr_shape q C k lam
  have hsub : mmr q C k lam ⊆ List.range C.length := by
    intro i hi
    exact List.mem_range.mpr (hlt i hi)
  have hsp : (mmr q C k lam).Subperm (List.range C.length) :=
    List.subperm_of_subset hnd hsub
  refine hsp.perm_of_length_le ?_
  rw [hlen, List.length_range]
  omega

/-! ### Behaviour at `lam = 1`: pure relevance ranking -/

theorem mmrScore_lam_one (C : List Vec) (q : Vec) (sel : List Nat) (j : Nat) :
    mmrScore C q 1 sel j = relQ C q j := by
  unfold mmrScore
  ring

theorem pyMax_congr {f g : Nat → ℚ} (h : ∀ x, f x = g x) (l : List Nat) :
    pyMax f l = pyMax g l := by
  have : f = g := funext h
  rw [this]

theorem relBetter_of_pick {C : List Vec} {q : Vec} {avail : List Nat} {m : Nat}
    (hpw : List.Pairwise (· < ·) avail)
    (hp : pyMax (relQ C q) avail = some m) :
    ∀ j ∈ avail, j ≠ m → relBetter C q m j := by
  intro j hj hjne
  obtain ⟨_, hmax, hleast⟩ := pyMax_char hpw hp
  rcases lt_or_eq_of_le (hmax j hj) with hlt | heq
  · exact Or.inl hlt
  · refine Or.inr ⟨heq.symm, ?_⟩
    have := hleast j hj heq
    omega

theorem mmrGo_lam1_invariant (C : List Vec) (q : Vec) :
    ∀ (fuel : Nat) (sel avail : List Nat),
      List.Pairwise (· < ·) avail →
      (∀ i ∈ sel, ∀ j ∈ avail, relBetter C q i j) →
      sel.Pairwise (relBetter C q) →
      sel ≠ [] →
      (mmrGo C q 1 fuel sel avail).Pairwise (relBetter C q) ∧
      (∀ i ∈ sel, i ∈ mmrGo C q 1 fuel sel avail) ∧
      (∀ j ∈ avail, j ∉ mmrGo C q 1 fuel sel avail →
        ∀ i ∈ mmrGo C q 1 fuel sel avail, relBetter C q i j) := by
  intro fuel
  induction fuel with
  | zero =>
      intro sel avail _ hbeat hpair _
      refine ⟨by simpa [mmrGo] using hpair, ?_, ?_⟩
      · intro i hi; simpa [mmrGo] using hi
      · intro j hj hjn i hi
        exact hbeat i (by simpa [mmrGo] using hi) j hj
  | succ fuel ih =>
      intro sel avail hpw hbeat hpair hne
      obtain ⟨s0, rest, rfl⟩ := List.exists_cons_of_ne_nil hne
      have hcongr :
          pyMax (mmrScore C q 1 (s0 :: rest)) avail = pyMax (relQ C q) avail :=
        pyMax_congr (fun x => mmrScore_lam_one C q (s0 :: rest) x) avail
      rcases hp : pyMax (relQ C q) avail with _ | m
      · have hav : avail = [] := pyMax_eq_none_iff.mp hp
        subst hav
        have hstep :
            mmrGo C q 1 (fuel + 1) (s0 :: rest) [] = s0 :: rest := by
          simp only [mmrGo, hcongr, hp]
        rw [hstep]
        refine ⟨hpair, fun i hi => hi, ?_⟩
        intro j hj
        simp at hj
      · have hstep :
            mmrGo C q 1 (fuel + 1) (s0 :: rest) avail =
              mmrGo C q 1 fuel (s0 :: rest ++ [m]) (avail.erase m) := by
          simp only [mmrGo, hcongr, hp]
        have hm : m ∈ avail := pyMax_mem hp
        have hnda : avail.Nodup := hpw.nodup
        have hbeats := relBetter_of_pick hpw hp
        have hbeat' :
            ∀ i ∈ s0 :: rest ++ [m], ∀ j ∈ avail.erase m, relBetter C q i j := by
          intro i hi j hj
          have hj' : j ∈ avail := List.mem_of_mem_erase hj
          have hjne : j ≠ m := (List.Nodup.mem_erase_iff hnda).mp hj |>.1
          rcases List.mem_append.mp hi with h1 | h2
          · exact hbeat i h1 j hj'
          · simp at h2; subst h2; exact hbeats j hj' hjne
        have hpair' : (s0 :: rest ++ [m]).Pairwise (relBetter C q) := by
          rw [List.pairwise_append]
          refine ⟨hpair, by simp, ?_⟩
          intro a ha b hb
          simp at hb
          rw [hb]
          exact hbeat a ha m hm
        have hrec := ih (s0 :: rest ++ [m]) (avail.erase m)
          (hpw.sublist (avail.erase_sublist m)) hbeat' hpair' (by simp)
        rw [hstep]
        refine ⟨hrec.1, ?_, ?_⟩
        · intro i hi
          exact hrec.2.1 i (List.mem_append.mpr (Or.inl hi))
        · intro j hj hjn i hi
          by_cases hjm : j = m
          · subst hjm
            exact absurd (hrec.2.1 j (List.mem_append.mpr (Or.inr (by simp)))) hjn
          · exact hrec.2.2 j ((List.Nodup.mem_erase_iff hnda).mpr ⟨hjm, hj⟩) hjn i hi

theorem mmr_lam1_ordered (q : Vec) (C : List Vec) (k : Nat) :
    (mmr q C k 1).Pairwise (relBetter C q) ∧
    (∀ i ∈ mmr q C k 1, ∀ j, j < C.length → j ∉ mmr q C k 1 → relBetter C q i j) := by
  unfold mmr
  rcases hk : min k C.length with _ | fuel
  · constructor
    · simp [mmrGo]
    · intro i hi
      simp [mmrGo] at hi
  · have hn : 0 < C.length := by
      rcases Nat.eq_zero_or_pos C.length with h0 | h0
      · rw [h0] at hk; simp at hk
      · exact h0
    have hrange : List.range C.length ≠ [] := by
      intro h
      have := List.length_range C.length
      rw [h] at this
      simp at this
      omega
    rcases hp : pyMax (relQ C q) (List.range C.length) with _ | i
    · exact absurd (pyMax_eq_none_iff.mp hp) hrange
    · have hi : i ∈ List.range C.length := pyMax_mem hp
      have hnd : (List.range C.length).Nodup := List.nodup_range _
      have hstep :
          mmrGo C q 1 (fuel + 1) [] (List.range C.length) =
            mmrGo C q 1 fuel [i] ((List.range C.length).erase i) := by
        simp only [mmrGo, hp]
        rfl
      have hbeats := relBetter_of_pick (List.pairwise_lt_range _) hp
      have hrec := mmrGo_lam1_invariant C q fuel [i] ((List.range C.length).erase i)
        ((List.pairwise_lt_range _).sublist ((List.range C.length).erase_sublist i))
        (by
          intro a ha j hj
          simp at ha; subst ha
          have hj' : j ∈ List.range C.length := List.mem_of_mem_erase hj
          have hjne : j ≠ a := (List.Nodup.mem_erase_iff hnd).mp hj |>.1
          exact hbeats j hj' hjne)
        (by simp)
        (by simp)
      rw [hstep]
      refine ⟨hrec.1, ?_⟩
      intro a ha j hjlt hjn
      have hjr : j ∈ List.range C.length := List.mem_range.mpr hjlt
      by_cases hji : j = i
      · subst hji
        exact absurd (hrec.2.1 j (by simp)) hjn
      · exact hrec.2.2 j ((List.Nodup.mem_erase_iff hnd).mpr ⟨hji, hjr⟩) hjn a ha

/-! ### Lemmas about the `search_hybrid` extraction loop -/

theorem extractAll_error_of_mem {res : List ScoredPoint} {r : ScoredPoint}
    (hr : r ∈ res) {e : String} (he : extractVec r.vector = .error e) :
    ∃ e', extractAll res = .error e' := by
  induction res with
  | nil => simp at hr
  | cons s rest ih =>
      rcases List.mem_cons.mp hr with rfl | hr'
      · exact ⟨e, by simp [extractAll, he]⟩
      · rcases hx : extractVec s.vector with e2 | v
        · exact ⟨e2, by simp [extractAll, hx]⟩
        · obtain ⟨e', he'⟩ := ih hr'
          exact ⟨e', by simp [extractAll, hx, he']⟩

theorem extractAll_ok_of_all {res : List ScoredPoint} {n : Nat}
    (h : res.all (fun r => vecOkLen n r.vector) = true) :
    ∃ C, extractAll res = .ok C ∧ C.length = res.length ∧ ∀ v ∈ C, v.length = n := by
  induction res with
  | nil => exact ⟨[], rfl, rfl, by simp⟩
  | cons s rest ih =>
      rw [List.all_cons, Bool.and_eq_true] at h
      obtain ⟨hs, hrest⟩ := h
      rcases hx : extractVec s.vector with e | v
      · rw [vecOkLen, hx] at hs; simp at hs
      · obtain ⟨C, hC, hlen, hall⟩ := ih hrest
        refine ⟨v :: C, by simp [extractAll, hx, hC], by simp [hlen], ?_⟩
        intro w hw
        rcases List.mem_cons.mp hw with rfl | hw'
        · rw [vecOkLen, hx] at hs; simpa using hs
        · exact hall w hw'

/-! ### Association-list lemmas for the `by_id` dictionary -/

theorem lookup_updAssoc_self (k : String) (v : Hit) :
    ∀ l : List (String × Hit), lookupAssoc k (updAssoc k v l) = some v := by
  intro l
  induction l with
  | nil => simp [updAssoc, lookupAssoc]
  | cons p rest ih =>
      obtain ⟨k', v'⟩ := p
      by_cases h : k' = k
      · simp [updAssoc, lookupAssoc, h]
      · simp [updAssoc, lookupAssoc, h, ih]

theorem lookup_updAssoc_ne {k k2 : String} (hne : k2 ≠ k) (v : Hit) :
    ∀ l : List (String × Hit), lookupAssoc k2 (updAssoc k v l) = lookupAssoc k2 l := by
  intro l
  have hkk2 : ¬ k = k2 := fun hc => hne hc.symm
  induction l with
  | nil => simp [updAssoc, lookupAssoc, hkk2]
  | cons p rest ih =>
      obtain ⟨k', v'⟩ := p
      by_cases h : k' = k
      · subst h
        simp [updAssoc, lookupAssoc, hkk2]
      · simp [updAssoc, lookupAssoc, h, ih]

theorem mergeStep_invalid {hit : Hit} (h : hitValid hit = false)
    (acc : List (String × Hit)) : mergeStep acc hit = acc := by
  unfold mergeStep
  unfold hitValid at h
  rw [Bool.and_eq_false_iff] at h
  rcases h with h | h
  · have hid : hit.id = HVal.vNone := by
      by_contra hne
      simp [hne] at h
    simp [hid]
  · by_cases hid : hit.id = HVal.vNone
    · simp [hid]
    · simp [hid, h]

theorem mergeStep_valid {hit : Hit} (h : hitValid hit = true)
    (acc : List (String × Hit)) :
    mergeStep acc hit =
      match lookupAssoc (pyStr hit.id) acc with
      | none => updAssoc (pyStr hit.id) hit acc
      | some stored =>
          if fgt (pyFloat hit.score) (storedScoreF stored) then
            updAssoc (pyStr hit.id) hit acc
          else acc := by
  unfold hitValid at h
  rw [Bool.and_eq_true] at h
  obtain ⟨hid, hnum⟩ := h
  have hid' : ¬ hit.id = HVal.vNone := by
    intro hc
    simp [hc] at hid
  unfold mergeStep
  simp [hid', hnum]

theorem mergeStep_valid_none {hit : Hit} (h : hitValid hit = true)
    {acc : List (String × Hit)} (hl : lookupAssoc (pyStr hit.id) acc = none) :
    mergeStep acc hit = updAssoc (pyStr hit.id) hit acc := by
  rw [mergeStep_valid h acc, hl]

theorem mergeStep_valid_some {hit : Hit} (h : hitValid hit = true)
    {acc : List (String × Hit)} {stored : Hit}
    (hl : lookupAssoc (pyStr hit.id) acc = some stored) :
    mergeStep acc hit =
      if fgt (pyFloat hit.score) (storedScoreF stored) then
        updAssoc (pyStr hit.id) hit acc
      else acc := by
  rw [mergeStep_valid h acc, hl]

theorem lookup_mergeStep_self {hit : Hit} (hval : hitValid hit = true)
    (acc : List (String × Hit)) :
    lookupAssoc (pyStr hit.id) (mergeStep acc hit) =
      keepStep (lookupAssoc (pyStr hit.id) acc) hit := by
  rw [mergeStep_valid hval acc]
  rcases hl : lookupAssoc (pyStr hit.id) acc with _ | stored
  · simp [keepStep, lookup_updAssoc_self]
  · rcases hcmp : fgt (pyFloat hit.score) (storedScoreF stored)
    · simp [hcmp, keepStep, hl]
    · simp [hcmp, keepStep, lookup_updAssoc_self]

theorem lookup_mergeStep_other {hit : Hit} {key : String}
    (hkey : key ≠ pyStr hit.id) (acc : List (String × Hit)) :
    lookupAssoc key (mergeStep acc hit) = lookupAssoc key acc := by
  rcases hval : hitValid hit
  · rw [mergeStep_invalid hval acc]
  · rw [mergeStep_valid hval acc]
    rcases hl : lookupAssoc (pyStr hit.id) acc with _ | stored
    · simp [lookup_updAssoc_ne hkey]
    · rcases hcmp : fgt (pyFloat hit.score) (storedScoreF stored)
      · simp [hcmp]
      · simp [hcmp, lookup_updAssoc_ne hkey]

/-- The dictionary built by the `_merge_hits` loop looked up at any key is
exactly the per-key reference fold over the valid entries with that key. -/
theorem foldl_mergeStep_lookup :
    ∀ (hits : List Hit) (acc : List (String × Hit)) (key : String),
      lookupAssoc key (hits.foldl mergeStep acc) =
        (keyHits hits key).foldl keepStep (lookupAssoc key acc) := by
  intro hits
  induction hits with
  | nil => intro acc key; simp [keyHits]
  | cons h rest ih =>
      intro acc key
      simp only [List.foldl_cons]
      rw [ih (mergeStep acc h) key]
      rcases hval : hitValid h
      · have hfil : keyHits (h :: rest) key = keyHits rest key := by
          unfold keyHits
          rw [List.filter_cons]
          simp [hval]
        rw [hfil, mergeStep_invalid hval acc]
      · by_cases hkey : pyStr h.id = key
        · have hfil : keyHits (h :: rest) key = h :: keyHits rest key := by
            unfold keyHits
            rw [List.filter_cons]
            simp [hval, hkey]
          rw [hfil]
          subst hkey
          rw [lookup_mergeStep_self hval acc]
          rfl
        · have hfil : keyHits (h :: rest) key = keyHits rest key := by
            unfold keyHits
            rw [List.filter_cons]
            simp [hkey]
          rw [hfil, lookup_mergeStep_other (fun hc => hkey hc.symm) acc]

theorem buildById_lookup (hits : List Hit) (key : String) :
    lookupAssoc key (buildById hits) = keepFold (keyHits hits key) := by
  unfold buildById keepFold
  rw [foldl_mergeStep_lookup hits [] key]
  rfl

/-! ### Domination and stability: reprocessing the same input is a no-op -/

theorem valid_storedScore {h : Hit} (hv : hitValid h = true) :
    storedScoreF h = pyFloat h.score := by
  unfold hitValid at hv
  rw [Bool.and_eq_true] at hv
  have hnum := hv.2
  unfold storedScoreF
  cases hs : h.score <;> simp [hs, isNumeric] at hnum ⊢

theorem keepStep_some (acc : Option Hit) (h : Hit) :
    ∃ w, keepStep acc h = some w ∧
      (w = h ∨ ∃ s, acc = some s ∧ w = s ∧
        fgt (pyFloat h.score) (storedScoreF s) = false) := by
  cases acc with
  | none => exact ⟨h, rfl, Or.inl rfl⟩
  | some s =>
      rcases hcmp : fgt (pyFloat h.score) (storedScoreF s)
      · exact ⟨s, by simp [keepStep, hcmp], Or.inr ⟨s, rfl, rfl, hcmp⟩⟩
      · exact ⟨h, by simp [keepStep, hcmp], Or.inl rfl⟩

theorem keepFoldFrom_some {l : List Hit} (hval : ∀ h ∈ l, hitValid h = true) :
    ∀ v : Hit, ∃ v', l.foldl keepStep (some v) = some v' ∧
      fge (storedScoreF v') (storedScoreF v) := by
  induction l with
  | nil => intro v; exact ⟨v, rfl, fge_refl _⟩
  | cons h rest ih =>
      intro v
      have hvh : hitValid h = true := hval h (by simp)
      have hval' : ∀ x ∈ rest, hitValid x = true := fun x hx => hval x (by simp [hx])
      rcases hcmp : fgt (pyFloat h.score) (storedScoreF v)
      · have hstep : keepStep (some v) h = some v := by simp [keepStep, hcmp]
        simp only [List.foldl_cons, hstep]
        exact ih hval' v
      · have hstep : keepStep (some v) h = some h := by simp [keepStep, hcmp]
        simp only [List.foldl_cons, hstep]
        obtain ⟨v', hv', hge⟩ := ih hval' h
        refine ⟨v', hv', fge_trans hge (Or.inr ?_)⟩
        rw [valid_storedScore hvh]
        exact hcmp

theorem keepFold_dominates {l : List Hit} (hval : ∀ h ∈ l, hitValid h = true) :
    ∀ (acc : Option Hit) (e : Hit), e ∈ l →
      ∃ v, l.foldl keepStep acc = some v ∧
        fgt (pyFloat e.score) (storedScoreF v) = false := by
  induction l with
  | nil => intro acc e he; simp at he
  | cons h rest ih =>
      intro acc e he
      have hvh : hitValid h = true := hval h (by simp)
      have hval' : ∀ x ∈ rest, hitValid x = true := fun x hx => hval x (by simp [hx])
      obtain ⟨w, hw, hcase⟩ := keepStep_some acc h
      rcases List.mem_cons.mp he with rfl | he'
      · have hnotgt : fgt (pyFloat e.score) (storedScoreF w) = false := by
          rcases hcase with rfl | ⟨s, _, rfl, hs⟩
          · rw [valid_storedScore hvh]
            exact fgt_irrefl _
          · exact hs
        obtain ⟨v', hv', hge⟩ := keepFoldFrom_some hval' w
        refine ⟨v', ?_, not_fgt_of_fge hge hnotgt⟩
        simpa [List.foldl_cons, hw] using hv'
      · obtain ⟨v, hv, hdom⟩ := ih hval' (keepStep acc h) e he'
        exact ⟨v, by simpa [List.foldl_cons] using hv, hdom⟩

theorem foldl_mergeStep_stable :
    ∀ (hits : List Hit) (acc : List (String × Hit)),
      (∀ e ∈ hits, hitValid e = true →
        ∃ v, lookupAssoc (pyStr e.id) acc = some v ∧
          fgt (pyFloat e.score) (storedScoreF v) = false) →
      hits.foldl mergeStep acc = acc := by
  intro hits
  induction hits with
  | nil => intro acc _; rfl
  | cons h rest ih =>
      intro acc hdom
      have hstep : mergeStep acc h = acc := by
        rcases hval : hitValid h
        · exact mergeStep_invalid hval acc
        · obtain ⟨v, hv, hngt⟩ := hdom h (by simp) hval
          rw [mergeStep_valid hval acc, hv]
          simp [hngt]
      simp only [List.foldl_cons, hstep]
      exact ih acc (fun e he hv => hdom e (by simp [he]) hv)

theorem keyHits_valid (hits : List Hit) (key : String) :
    ∀ h ∈ keyHits hits key, hitValid h = true := by
  intro h hh
  have := (List.mem_filter.mp hh).2
  rw [Bool.and_eq_true] at this
  exact this.1

theorem mem_keyHits_self {e : Hit} (hv : hitValid e = true) {hits : List Hit}
    (he : e ∈ hits) : e ∈ keyHits hits (pyStr e.id) := by
  refine List.mem_filter.mpr ⟨he, ?_⟩
  rw [Bool.and_eq_true]
  exact ⟨hv, by simp⟩

theorem buildById_append_self (S : List Hit) : buildById (S ++ S) = buildById S := by
  unfold buildById
  rw [List.foldl_append]
  apply foldl_mergeStep_stable
  intro e he hv
  have hlk := buildById_lookup S (pyStr e.id)
  unfold buildById at hlk
  rw [hlk]
  exact keepFold_dominates (keyHits_valid S (pyStr e.id)) none e (mem_keyHits_self hv he)

/-! ### The CPython sort model: order facts, permutation and sortedness -/

theorem fgt_false_trans {x y z : FloatQ} (hx : x ≠ FloatQ.nan) (hy : y ≠ FloatQ.nan)
    (hz : z ≠ FloatQ.nan) (h1 : fgt y x = false) (h2 : fgt z y = false) :
    fgt z x = false := by
  cases x <;> cases y <;> cases z <;> (simp_all [fgt]; try linarith)

theorem fgt_true_of_fgt_nfgt {a b c : FloatQ} (ha : a ≠ FloatQ.nan)
    (h1 : fgt b c = true) (h2 : fgt b a = false) : fgt a c = true := by
  cases a <;> cases b <;> cases c <;> (simp_all [fgt]; try linarith)

theorem chain'_pairwise_asc :
    ∀ l : List Hit, (∀ h ∈ l, pyFloat h.score ≠ FloatQ.nan) →
      List.Chain' hitAscP l → l.Pairwise hitAscP := by
  intro l
  induction l with
  | nil => intro _ _; exact List.Pairwise.nil
  | cons x xs ih =>
      intro hnn hch
      rw [List.chain'_cons'] at hch
      obtain ⟨hhd, htl⟩ := hch
      have hpw := ih (fun h hh => hnn h (by simp [hh])) htl
      rw [List.pairwise_cons]
      refine ⟨?_, hpw⟩
      intro z hz
      cases xs with
      | nil => simp at hz
      | cons y ys =>
          have hxy : hitAscP x y := hhd y rfl
          rcases List.mem_cons.mp hz with rfl | hz2
          · exact hxy
          · have hyz : hitAscP y z := (List.pairwise_cons.mp hpw).1 z hz2
            unfold hitAscP at hxy hyz ⊢
            exact fgt_false_trans (hnn z (by simp [hz])) (hnn y (by simp))
              (hnn x (by simp)) hyz hxy

theorem chain'_pairwise_sgt :
    ∀ l : List Hit, List.Chain' hitSgtP l → l.Pairwise hitSgtP := by
  intro l
  induction l with
  | nil => intro _; exact List.Pairwise.nil
  | cons x xs ih =>
      intro hch
      rw [List.chain'_cons'] at hch
      obtain ⟨hhd, htl⟩ := hch
      have hpw := ih htl
      rw [List.pairwise_cons]
      refine ⟨?_, hpw⟩
      intro z hz
      cases xs with
      | nil => simp at hz
      | cons y ys =>
          have hxy : hitSgtP x y := hhd y rfl
          rcases List.mem_cons.mp hz with rfl | hz2
          · exact hxy
          · exact fgt_trans hxy ((List.pairwise_cons.mp hpw).1 z hz2)

theorem ascRun_append (prev : Hit) :
    ∀ l : List Hit, (ascRun prev l).1 ++ (ascRun prev l).2 = l := by
  intro l
  induction l generalizing prev with
  | nil => rfl
  | cons x xs ih =>
      unfold ascRun
      rcases hc : flt (pyFloat x.score) (pyFloat prev.score)
      · simp only [hc, Bool.false_eq_true, if_false, List.cons_append]
        rw [ih x]
      · simp [hc]

theorem descRun_append (prev : Hit) :
    ∀ l : List Hit, (descRun prev l).1 ++ (descRun prev l).2 = l := by
  intro l
  induction l generalizing prev with
  | nil => rfl
  | cons x xs ih =>
      unfold descRun
      rcases hc : flt (pyFloat x.score) (pyFloat prev.score)
      · simp [hc]
      · simp only [hc, if_true, List.cons_append]
        rw [ih x]

theorem ascRun_chain (prev : Hit) :
    ∀ l : List Hit, List.Chain' hitAscP (prev :: (ascRun prev l).1) := by
  intro l
  induction l generalizing prev with
  | nil => simp [ascRun]
  | cons x xs ih =>
      unfold ascRun
      rcases hc : flt (pyFloat x.score) (pyFloat prev.score)
      · simp only [hc, Bool.false_eq_true, if_false]
        rw [List.chain'_cons]
        exact ⟨hc, ih x⟩
      · simp [hc]

theorem descRun_chain (prev : Hit) :
    ∀ l : List Hit, List.Chain' hitSgtP (prev :: (descRun prev l).1) := by
  intro l
  induction l generalizing prev with
  | nil => simp [descRun]
  | cons x xs ih =>
      unfold descRun
      rcases hc : flt (pyFloat x.score) (pyFloat prev.score)
      · simp [hc]
      · simp only [hc, if_true]
        rw [List.chain'_cons]
        exact ⟨hc, ih x⟩

theorem initialRun_append_perm (l : List Hit) :
    ((initialRun l).1 ++ (initialRun l).2).Perm l := by
  cases l with
  | nil => rfl
  | cons a tl =>
      cases tl with
      | nil => rfl
      | cons b rest =>
          unfold initialRun
          rcases hc : flt (pyFloat b.score) (pyFloat a.score)
          · simp only [hc, Bool.false_eq_true, if_false, List.cons_append]
            rw [ascRun_append]
          · simp only [hc, if_true]
            refine List.Perm.trans (List.Perm.append_right _ (List.reverse_perm _)) ?_
            rw [List.cons_append, List.cons_append, descRun_append]

theorem initialRun_pairwise (l : List Hit)
    (hnn : ∀ h ∈ l, pyFloat h.score ≠ FloatQ.nan) :
    ((initialRun l).1).Pairwise hitAscP := by
  cases l with
  | nil => exact List.Pairwise.nil
  | cons a tl =>
      cases tl with
      | nil => simp [initialRun]
      | cons b rest =>
          unfold initialRun
          rcases hc : flt (pyFloat b.score) (pyFloat a.score)
          · simp only [hc, Bool.false_eq_true, if_false]
            have hch : List.Chain' hitAscP (a :: b :: (ascRun b rest).1) := by
              rw [List.chain'_cons]
              exact ⟨hc, ascRun_chain b rest⟩
            refine chain'_pairwise_asc _ ?_ hch
            intro h hh
            rcases List.mem_cons.mp hh with rfl | hh2
            · exact hnn h (by simp)
            rcases List.mem_cons.mp hh2 with rfl | hh3
            · exact hnn h (by simp)
            · have : h ∈ rest := by
                have hsub := ascRun_append b rest
                have : h ∈ (ascRun b rest).1 ++ (ascRun b rest).2 :=
                  List.mem_append.mpr (Or.inl hh3)
                rwa [hsub] at this
              exact hnn h (by simp [this])
          · simp only [hc, if_true]
            have hch : List.Chain' hitSgtP (a :: b :: (descRun b rest).1) := by
              rw [List.chain'_cons]
              exact ⟨hc, descRun_chain b rest⟩
            have hsgt := chain'_pairwise_sgt _ hch
            rw [List.pairwise_reverse]
            exact hsgt.imp (fun h => fgt_asymm h)

theorem bisectGo_char (key : FloatQ) (a : List Hit) (hk : key ≠ FloatQ.nan)
    (hnn : ∀ h ∈ a, pyFloat h.score ≠ FloatQ.nan) (hpw : a.Pairwise hitAscP) :
    ∀ (fuel p r : Nat), p ≤ r → r ≤ a.length → r - p ≤ fuel →
      (∀ i, i < p → flt key (pyFloat (a.getD i dummyHit).score) = false) →
      (∀ i, r ≤ i → i < a.length → flt key (pyFloat (a.getD i dummyHit).score) = true) →
      p ≤ bisectGo key a fuel p r ∧ bisectGo key a fuel p r ≤ r ∧
      (∀ i, i < bisectGo key a fuel p r →
        flt key (pyFloat (a.getD i dummyHit).score) = false) ∧
      (∀ i, bisectGo key a fuel p r ≤ i → i < a.length →
        flt key (pyFloat (a.getD i dummyHit).score) = true) := by
  have hidx : ∀ i j, i < j → j < a.length →
      fgt (pyFloat (a.getD i dummyHit).score) (pyFloat (a.getD j dummyHit).score) = false := by
    intro i j hij hj
    have hi : i < a.length := lt_trans hij hj
    have := List.pairwise_iff_getElem.mp hpw i j hi hj hij
    unfold hitAscP at this
    rwa [List.getD_eq_getElem a dummyHit hi, List.getD_eq_getElem a dummyHit hj]
  have hmemnn : ∀ i, i < a.length → pyFloat (a.getD i dummyHit).score ≠ FloatQ.nan := by
    intro i hi
    rw [List.getD_eq_getElem a dummyHit hi]
    exact hnn _ (List.getElem_mem hi)
  intro fuel
  induction fuel with
  | zero =>
      intro p r hpr hr hfuel hlow hhigh
      have hpe : p = r := by omega
      subst hpe
      exact ⟨le_refl _, le_refl _, hlow, fun i hpi hi => hhigh i hpi hi⟩
  | succ fuel ih =>
      intro p r hpr hr hfuel hlow hhigh
      by_cases hlt : p < r
      · have hmidge : p ≤ (p + r) / 2 := by omega
        have hmidlt : (p + r) / 2 < r := by omega
        have hmidlen : (p + r) / 2 < a.length := lt_of_lt_of_le hmidlt hr
        rcases hc : flt key (pyFloat (a.getD ((p + r) / 2) dummyHit).score)
        · have hstep : bisectGo key a (fuel + 1) p r =
              bisectGo key a fuel ((p + r) / 2 + 1) r := by
            simp only [bisectGo, if_pos hlt, hc, Bool.false_eq_true, if_false]
          rw [hstep]
          have hlow2 : ∀ i, i < (p + r) / 2 + 1 →
              flt key (pyFloat (a.getD i dummyHit).score) = false := by
            intro i hi
            rcases Nat.lt_or_ge i ((p + r) / 2) with hi2 | hi2
            · unfold flt
              refine fgt_false_trans hk (hmemnn _ hmidlen)
                (hmemnn _ (lt_trans hi2 hmidlen)) ?_ ?_
              · exact hc
              · exact hidx i ((p + r) / 2) hi2 hmidlen
            · have : i = (p + r) / 2 := by omega
              rw [this]
              exact hc
          obtain ⟨h1, h2, h3, h4⟩ := ih ((p + r) / 2 + 1) r (by omega) hr (by omega)
            hlow2 hhigh
          exact ⟨le_trans (by omega) h1, h2, h3, h4⟩
        · have hstep : bisectGo key a (fuel + 1) p r =
              bisectGo key a fuel p ((p + r) / 2) := by
            simp only [bisectGo, if_pos hlt, hc, if_true]
          rw [hstep]
          have hhigh2 : ∀ i, (p + r) / 2 ≤ i → i < a.length →
              flt key (pyFloat (a.getD i dummyHit).score) = true := by
            intro i hi hil
            rcases Nat.lt_or_ge ((p + r) / 2) i with hi2 | hi2
            · unfold flt
              exact fgt_true_of_fgt_nfgt (hmemnn _ hil) hc
                (hidx ((p + r) / 2) i hi2 hil)
            · have : i = (p + r) / 2 := by omega
              rw [this]
              exact hc
          obtain ⟨h1, h2, h3, h4⟩ := ih p ((p + r) / 2) hmidge (le_of_lt hmidlen)
            (by omega) hlow hhigh2
          exact ⟨h1, le_trans h2 (le_of_lt hmidlt), h3, h4⟩
      · have hpe : p = r := by omega
        subst hpe
        have hstep : bisectGo key a (fuel + 1) p p = p := by
          simp [bisectGo]
        rw [hstep]
        exact ⟨le_refl _, le_refl _, hlow, fun i hpi hi => hhigh i hpi hi⟩

theorem binInsert_perm (x : Hit) (sorted : List Hit) :
    (binInsert x sorted).Perm (x :: sorted) := by
  unfold binInsert
  refine List.Perm.trans List.perm_middle ?_
  rw [List.take_append_drop]

theorem binInsert_pairwise (x : Hit) (sorted : List Hit)
    (hx : pyFloat x.score ≠ FloatQ.nan)
    (hnn : ∀ h ∈ sorted, pyFloat h.score ≠ FloatQ.nan)
    (hpw : sorted.Pairwise hitAscP) :
    (binInsert x sorted).Pairwise hitAscP := by
  obtain ⟨hp0, hple, hlow, hhigh⟩ :=
    bisectGo_char (pyFloat x.score) sorted hx hnn hpw sorted.length 0 sorted.length
      (Nat.zero_le _) (le_refl _) (by omega)
      (by intro i hi; omega)
      (by intro i hi hi2; omega)
  set pos := bisectGo (pyFloat x.score) sorted sorted.length 0 sorted.length with hpos
  have htkmem : ∀ u ∈ sorted.take pos, ∃ i, i < pos ∧ i < sorted.length ∧
      sorted.getD i dummyHit = u := by
    intro u hu
    obtain ⟨i, hi, hval⟩ := List.mem_iff_getElem.mp hu
    rw [List.length_take] at hi
    have hi1 : i < pos := lt_of_lt_of_le hi (min_le_left _ _)
    have hi2 : i < sorted.length := lt_of_lt_of_le hi (min_le_right _ _)
    refine ⟨i, hi1, hi2, ?_⟩
    rw [List.getD_eq_getElem sorted dummyHit hi2, ← hval]
    exact (List.getElem_take ..).symm
  have hdpmem : ∀ v ∈ sorted.drop pos, ∃ j, pos ≤ j ∧ j < sorted.length ∧
      sorted.getD j dummyHit = v := by
    intro v hv
    obtain ⟨i, hi, hval⟩ := List.mem_iff_getElem.mp hv
    rw [List.length_drop] at hi
    refine ⟨pos + i, Nat.le_add_right _ _, by omega, ?_⟩
    rw [List.getD_eq_getElem sorted dummyHit (by omega), ← hval]
    exact (List.getElem_drop ..).symm
  unfold binInsert
  rw [← hpos, List.pairwise_append]
  refine ⟨hpw.sublist (List.take_sublist _ _), ?_, ?_⟩
  · rw [List.pairwise_cons]
    refine ⟨?_, hpw.sublist (List.drop_sublist _ _)⟩
    intro v hv
    obtain ⟨j, hj1, hj2, hj3⟩ := hdpmem v hv
    have := hhigh j hj1 hj2
    unfold hitAscP
    rw [← hj3]
    exact fgt_asymm this
  · intro u hu v hv
    obtain ⟨i, hi1, hi2, hi3⟩ := htkmem u hu
    rcases List.mem_cons.mp hv with rfl | hv2
    · have hfl := hlow i hi1
      unfold flt at hfl
      unfold hitAscP
      rw [← hi3]
      exact hfl
    · obtain ⟨j, hj1, hj2, hj3⟩ := hdpmem v hv2
      have hij : i < j := lt_of_lt_of_le hi1 hj1
      have := List.pairwise_iff_getElem.mp hpw i j hi2 hj2 hij
      unfold hitAscP at this ⊢
      rw [← hi3, ← hj3,
        List.getD_eq_getElem sorted dummyHit hi2, List.getD_eq_getElem sorted dummyHit hj2]
      exact this

theorem binsortGo_perm :
    ∀ (rest sorted : List Hit), (binsortGo sorted rest).Perm (sorted ++ rest) := by
  intro rest
  induction rest with
  | nil => intro sorted; simp [binsortGo]
  | cons x xs ih =>
      intro sorted
      unfold binsortGo
      refine List.Perm.trans (ih (binInsert x sorted)) ?_
      refine List.Perm.trans (List.Perm.append_right xs (binInsert_perm x sorted)) ?_
      exact List.perm_middle.symm

theorem binsortGo_pairwise :
    ∀ (rest sorted : List Hit),
      (∀ h ∈ sorted, pyFloat h.score ≠ FloatQ.nan) →
      (∀ h ∈ rest, pyFloat h.score ≠ FloatQ.nan) →
      sorted.Pairwise hitAscP → (binsortGo sorted rest).Pairwise hitAscP := by
  intro rest
  induction rest with
  | nil => intro sorted _ _ hpw; exact hpw
  | cons x xs ih =>
      intro sorted hnns hnnr hpw
      unfold binsortGo
      refine ih (binInsert x sorted) ?_ (fun h hh => hnnr h (by simp [hh])) ?_
      · intro h hh
        rcases List.mem_cons.mp ((binInsert_perm x sorted).mem_iff.mp hh) with rfl | hh2
        · exact hnnr h (by simp)
        · exact hnns h hh2
      · exact binInsert_pairwise x sorted (hnnr x (by simp)) hnns hpw

theorem pySortAsc_perm (l : List Hit) : (pySortAsc l).Perm l := by
  unfold pySortAsc
  exact List.Perm.trans (binsortGo_perm _ _) (initialRun_append_perm l)

theorem pySortAsc_pairwise (l : List Hit)
    (hnn : ∀ h ∈ l, pyFloat h.score ≠ FloatQ.nan) :
    (pySortAsc l).Pairwise hitAscP := by
  unfold pySortAsc
  have hmem : ∀ h, h ∈ (initialRun l).1 ++ (initialRun l).2 → h ∈ l :=
    fun h hh => (initialRun_append_perm l).mem_iff.mp hh
  refine binsortGo_pairwise _ _ ?_ ?_ (initialRun_pairwise l hnn)
  · intro h hh
    exact hnn h (hmem h (List.mem_append.mpr (Or.inl hh)))
  · intro h hh
    exact hnn h (hmem h (List.mem_append.mpr (Or.inr hh)))

theorem pySortDesc_perm (l : List Hit) : (pySortDesc l).Perm l := by
  unfold pySortDesc
  refine List.Perm.trans (List.reverse_perm _) ?_
  exact List.Perm.trans (pySortAsc_perm _) (List.reverse_perm l)

theorem pySortDesc_pairwise (l : List Hit)
    (hnn : ∀ h ∈ l, pyFloat h.score ≠ FloatQ.nan) :
    (pySortDesc l).Pairwise hitDescP := by
  unfold pySortDesc
  rw [List.pairwise_reverse]
  have := pySortAsc_pairwise l.reverse (fun h hh => hnn h (List.mem_reverse.mp hh))
  exact this.imp (fun h => h)

/-! ### Invariants of the `by_id` dictionary -/

theorem mem_updAssoc {p : String × Hit} {k : String} {v : Hit} :
    ∀ {l : List (String × Hit)}, p ∈ updAssoc k v l → p = (k, v) ∨ p ∈ l := by
  intro l
  induction l with
  | nil => intro h; simp [updAssoc] at h; exact Or.inl h
  | cons q rest ih =>
      obtain ⟨k', v'⟩ := q
      intro h
      unfold updAssoc at h
      by_cases hk : k' = k
      · rw [if_pos hk] at h
        rcases List.mem_cons.mp h with rfl | h'
        · exact Or.inl rfl
        · exact Or.inr (by simp [h'])
      · rw [if_neg hk] at h
        rcases List.mem_cons.mp h with rfl | h'
        · exact Or.inr (by simp)
        · rcases ih h' with h1 | h2
          · exact Or.inl h1
          · exact Or.inr (by simp [h2])

theorem mergeStep_entry_inv {acc : List (String × Hit)} {hit : Hit}
    (hacc : ∀ p ∈ acc, hitValid p.2 = true ∧ pyStr p.2.id = p.1) :
    ∀ p ∈ mergeStep acc hit, hitValid p.2 = true ∧ pyStr p.2.id = p.1 := by
  intro p hp
  rcases hval : hitValid hit
  · rw [mergeStep_invalid hval acc] at hp
    exact hacc p hp
  · have hupd : p ∈ updAssoc (pyStr hit.id) hit acc → hitValid p.2 = true ∧ pyStr p.2.id = p.1 := by
      intro hmem
      rcases mem_updAssoc hmem with rfl | hold
      · exact ⟨hval, rfl⟩
      · exact hacc p hold
    rcases hl : lookupAssoc (pyStr hit.id) acc with _ | stored
    · rw [mergeStep_valid_none hval hl] at hp
      exact hupd hp
    · rw [mergeStep_valid_some hval hl] at hp
      rcases hcmp : fgt (pyFloat hit.score) (storedScoreF stored) with _ | _
      all_goals simp only [hcmp, Bool.false_eq_true, if_false, if_true] at hp
      · exact hacc p hp
      · exact hupd hp

theorem buildById_entry_inv (hits : List Hit) :
    ∀ p ∈ buildById hits, hitValid p.2 = true ∧ pyStr p.2.id = p.1 := by
  suffices h : ∀ (hits : List Hit) (acc : List (String × Hit)),
      (∀ p ∈ acc, hitValid p.2 = true ∧ pyStr p.2.id = p.1) →
      ∀ p ∈ hits.foldl mergeStep acc, hitValid p.2 = true ∧ pyStr p.2.id = p.1 by
    exact h hits [] (by simp)
  intro hits
  induction hits with
  | nil => intro acc hacc; exact hacc
  | cons x rest ih =>
      intro acc hacc
      simp only [List.foldl_cons]
      exact ih (mergeStep acc x) (mergeStep_entry_inv hacc)

theorem keys_updAssoc (k : String) (v : Hit) :
    ∀ l : List (String × Hit),
      (updAssoc k v l).map Prod.fst =
        if k ∈ l.map Prod.fst then l.map Prod.fst else l.map Prod.fst ++ [k] := by
  intro l
  induction l with
  | nil => simp [updAssoc]
  | cons q rest ih =>
      obtain ⟨k', v'⟩ := q
      by_cases hk : k' = k
      · subst hk
        simp [updAssoc]
      · have hkk : ¬ k = k' := fun hc => hk hc.symm
        unfold updAssoc
        rw [if_neg hk]
        simp only [List.map_cons, List.mem_cons]
        rw [ih]
        by_cases hmem : k ∈ rest.map Prod.fst
        · simp [hmem, hkk]
        · simp [hmem, hkk]

theorem keys_updAssoc_nodup {k : String} {v : Hit} {l : List (String × Hit)}
    (h : (l.map Prod.fst).Nodup) : ((updAssoc k v l).map Prod.fst).Nodup := by
  rw [keys_updAssoc]
  by_cases hmem : k ∈ l.map Prod.fst
  · rwa [if_pos hmem]
  · rw [if_neg hmem]
    refine List.Nodup.append h (by simp) ?_
    intro a ha hb
    simp at hb
    subst hb
    exact hmem ha

theorem buildById_keys_nodup (hits : List Hit) :
    ((buildById hits).map Prod.fst).Nodup := by
  suffices h : ∀ (hits : List Hit) (acc : List (String × Hit)),
      (acc.map Prod.fst).Nodup → ((hits.foldl mergeStep acc).map Prod.fst).Nodup by
    exact h hits [] (by simp)
  intro hits
  induction hits with
  | nil => intro acc hacc; exact hacc
  | cons x rest ih =>
      intro acc hacc
      simp only [List.foldl_cons]
      refine ih (mergeStep acc x) ?_
      rcases hval : hitValid x
      · rwa [mergeStep_invalid hval acc]
      · rcases hl : lookupAssoc (pyStr x.id) acc with _ | stored
        · rw [mergeStep_valid_none hval hl]
          exact keys_updAssoc_nodup hacc
        · rw [mergeStep_valid_some hval hl]
          rcases hcmp : fgt (pyFloat x.score) (storedScoreF stored)
          · simpa [hcmp]
          · simp only [if_true]
            exact keys_updAssoc_nodup hacc

/-! ### Facts about the kept values and the final output list -/

theorem keptValues_valid (hits : List Hit) :
    ∀ h ∈ keptValues hits, hitValid h = true := by
  intro h hh
  unfold keptValues at hh
  obtain ⟨p, hp, rfl⟩ := List.mem_map.mp hh
  exact (buildById_entry_inv hits p hp).1

theorem keptValues_str_nodup (hits : List Hit) :
    ((keptValues hits).map (fun h => pyStr h.id)).Nodup := by
  unfold keptValues
  rw [List.map_map]
  have hcongr :
      (buildById hits).map ((fun h => pyStr h.id) ∘ Prod.snd) =
        (buildById hits).map Prod.fst := by
    apply List.map_congr_left
    intro p hp
    exact (buildById_entry_inv hits p hp).2
  rw [hcongr]
  exact buildById_keys_nodup hits

theorem mergeHits_subset_kept (groups : List (List Hit)) (limit : Nat) :
    ∀ h ∈ mergeHits groups limit, h ∈ keptValues (concatAll groups) := by
  intro h hh
  unfold mergeHits at hh
  have h1 : h ∈ pySortDesc (keptValues (concatAll groups)) :=
    List.mem_of_mem_take hh
  exact (pySortDesc_perm _).mem_iff.mp h1

theorem buildById_snd_mem :
    ∀ (hits : List Hit) (acc : List (String × Hit)),
      ∀ p ∈ hits.foldl mergeStep acc, p ∈ acc ∨ p.2 ∈ hits := by
  intro hits
  induction hits with
  | nil => intro acc p hp; exact Or.inl hp
  | cons x rest ih =>
      intro acc p hp
      simp only [List.foldl_cons] at hp
      rcases ih (mergeStep acc x) p hp with h1 | h2
      · rcases hval : hitValid x
        · rw [mergeStep_invalid hval acc] at h1
          exact Or.inl h1
        · rcases hl : lookupAssoc (pyStr x.id) acc with _ | stored
          · rw [mergeStep_valid_none hval hl] at h1
            rcases mem_updAssoc h1 with rfl | hold
            · exact Or.inr (by simp)
            · exact Or.inl hold
          · rw [mergeStep_valid_some hval hl] at h1
            rcases hcmp : fgt (pyFloat x.score) (storedScoreF stored) with _ | _
            all_goals simp only [hcmp, Bool.false_eq_true, if_false, if_true] at h1
            · exact Or.inl h1
            · rcases mem_updAssoc h1 with rfl | hold
              · exact Or.inr (by simp)
              · exact Or.inl hold
      · exact Or.inr (by simp [h2])

theorem keptValues_subset (hits : List Hit) : ∀ h ∈ keptValues hits, h ∈ hits := by
  intro h hh
  unfold keptValues at hh
  obtain ⟨p, hp, rfl⟩ := List.mem_map.mp hh
  rcases buildById_snd_mem hits [] p hp with h1 | h2
  · simp at h1
  · exact h2

/-! ### The happy path of `search_hybrid` -/

theorem searchHybridFrom_ok {q : Vec} {res : List ScoredPoint} (topk : Nat) (lam : ℚ)
    (h : res.all (fun r => vecOkLen q.length r.vector) = true) :
    okLength (searchHybridFrom q res topk lam) = some (min topk res.length) := by
  rcases hres : res.isEmpty
  · obtain ⟨C, hC, hlen, hall⟩ := extractAll_ok_of_all h
    have hshape : C.all (fun v => v.length = q.length) = true := by
      rw [List.all_eq_true]
      intro v hv
      simp [hall v hv]
    unfold searchHybridFrom
    rw [hres, hC]
    simp only [Bool.false_eq_true, if_false, hshape, if_true]
    unfold okLength
    simp [(mmr_shape q C topk lam).1, hlen]
  · have hnil : res = [] := List.isEmpty_iff.mp hres
    subst hnil
    simp [searchHybridFrom, okLength]

/-! ## Claim theorems -/

/-- Claim C1: the MMR selector picks its first index as the lowest-index
argmax of relevance and each subsequent pick as the lowest-index argmax of
the score `lam * rel[j] - (1 - lam) * max_div[j]` over the unselected
indices; the selection equals the spec-side selector built from an
iteration-order-independent lowest-index argmax, whose value is invariant
under permutation of the traversal order. -/
theorem mmr_deterministic_lowest_tiebreak :
    (∀ (q : Vec) (C : List Vec) (k : Nat) (lam : ℚ),
      mmr q C k lam = mmrSpec q C k lam) ∧
    (∀ (f : Nat → ℚ) (l l' : List Nat), l.Perm l' → lowMax f l = lowMax f l') := by
  constructor
  · intro q C k lam
    unfold mmr mmrSpec
    exact mmrGo_eq_spec C q lam (min k C.length) [] (List.range C.length)
      (List.pairwise_lt_range _)
  · intro f l l' h
    exact lowMax_perm f h

/-- Witness for C1 at concrete inputs: the spec's end-to-end example matrix,
and a permuted traversal order for the lowest-index argmax. -/
theorem mmr_deterministic_lowest_tiebreak_witness :
    mmr [1, 0] [[1, 0], [9/10, 1/10], [-1, 0]] 2 (2/5) =
      mmrSpec [1, 0] [[1, 0], [9/10, 1/10], [-1, 0]] 2 (2/5) ∧
    lowMax (fun j => (j : ℚ)) [0, 1, 2] = lowMax (fun j => (j : ℚ)) [2, 0, 1] := by
  constructor
  · exact mmr_deterministic_lowest_tiebreak.1 [1, 0] [[1, 0], [9/10, 1/10], [-1, 0]] 2 (2/5)
  · exact mmr_deterministic_lowest_tiebreak.2 (fun j => (j : ℚ)) [0, 1, 2] [2, 0, 1] (by decide)

/-- Claim C5: the MMR selector returns exactly `min k n` indices, pairwise
distinct, each below `n`; for `k ≥ n` it returns all `n` indices exactly
once, and for `n = 0` it returns the empty sequence. -/
theorem mmr_returns_min_k_n_distinct (q : Vec) (C : List Vec) (k : Nat) (lam : ℚ) :
    (mmr q C k lam).length = min k C.length ∧
    (mmr q C k lam).Nodup ∧
    (∀ i ∈ mmr q C k lam, i < C.length) ∧
    (C.length ≤ k → (mmr q C k lam).Perm (List.range C.length)) ∧
    (C.length = 0 → mmr q C k lam = []) := by
  obtain ⟨hlen, hnd, hlt⟩ := mmr_shape q C k lam
  refine ⟨hlen, hnd, hlt, fun hk => mmr_perm_range q C k lam hk, fun h0 => ?_⟩
  have : (mmr q C k lam).length = 0 := by rw [hlen, h0]; simp
  exact List.length_eq_zero.mp this

/-- Witness for C5: with two candidate rows and `k = 5`, the selection is a
permutation of `[0, 1]`. -/
theorem mmr_returns_min_k_n_distinct_witness :
    (mmr [1, 0] [[1, 0], [0, 1]] 5 (2/5)).Perm (List.range 2) := by
  exact (mmr_returns_min_k_n_distinct [1, 0] [[1, 0], [0, 1]] 5 (2/5)).2.2.2.1 (by decide)

/-- Claim C6: with `lam = 1` the MMR selection is ordered by strictly
descending relevance with ties broken by the lowest original index, and
every selected index beats every unselected index in that order — pure
relevance ranking. -/
theorem mmr_lambda_one_relevance_ranking (q : Vec) (C : List Vec) (k : Nat) :
    (mmr q C k 1).Pairwise (relBetter C q) ∧
    (∀ i ∈ mmr q C k 1, ∀ j, j < C.length → j ∉ mmr q C k 1 → relBetter C q i j) := by
  exact mmr_lam1_ordered q C k

/-- Witness for C6: with rows `[[1,0],[0,1],[1,0]]` and `q = [1,0]`, `k = 2`
selects `[0, 2]`, and the selected index 0 beats the unselected index 1. -/
theorem mmr_lambda_one_relevance_ranking_witness :
    relBetter [[1, 0], [0, 1], [1, 0]] [1, 0] 0 1 := by
  have hev : mmr [1, 0] [[1, 0], [0, 1], [1, 0]] 2 1 = [0, 2] := by
    have hr : List.range 3 = [0, 1, 2] := by decide
    norm_num [mmr, hr, mmrGo, pyMax, pyMaxAux, relQ, dotQ, mmrScore, maxDivQ, List.erase]
  exact (mmr_lambda_one_relevance_ranking [1, 0] [[1, 0], [0, 1], [1, 0]] 2).2
    0 (by rw [hev]; decide) 1 (by decide) (by rw [hev]; decide)

/-- Claim C7: when every record of the index response extracts to a vector
of the query's dimension, `search_hybrid` returns (without error) exactly
`min topk n` results for an `n`-record response; the empty response returns
the empty sequence, not an error. -/
theorem searchHybrid_length_min_topk (q : Vec) (res : List ScoredPoint)
    (topk : Nat) (lam : ℚ) :
    (res.all (fun r => vecOkLen q.length r.vector) = true →
      okLength (searchHybridFrom q res topk lam) = some (min topk res.length)) ∧
    searchHybridFrom q [] topk lam = Except.ok [] := by
  constructor
  · intro h
    exact searchHybridFrom_ok topk lam h
  · rfl

/-- Witness for C7: two well-formed records and `topk = 1` give a successful
result of length 1. -/
theorem searchHybrid_length_min_topk_witness :
    okLength (searchHybridFrom [1, 0] [spGood, spGood2] 1 (2/5)) = some 1 := by
  exact (searchHybrid_length_min_topk [1, 0] [spGood, spGood2] 1 (2/5)).1 (by decide)

/-- Claim C2: for every input and every id key, exactly one entry is kept —
the result of folding the valid same-key entries in encounter order, keeping
the first and replacing only on a strictly greater score; in particular two
same-id entries with exactly equal scores keep the first-encountered one. -/
theorem mergeHits_keep_best_first_on_tie :
    (∀ (hits : List Hit) (key : String),
      lookupAssoc key (buildById hits) = keepFold (keyHits hits key)) ∧
    (∀ h1 h2 : Hit, hitValid h1 = true → hitValid h2 = true →
      pyStr h1.id = pyStr h2.id → pyFloat h1.score = pyFloat h2.score →
      lookupAssoc (pyStr h1.id) (buildById (concatAll [[h1], [h2]])) = some h1) := by
  constructor
  · exact buildById_lookup
  · intro h1 h2 hv1 hv2 hid hsc
    have hconcat : concatAll [[h1], [h2]] = [h1, h2] := by simp [concatAll]
    rw [hconcat, buildById_lookup]
    have hk1 : keyHits [h1, h2] (pyStr h1.id) = [h1, h2] := by
      unfold keyHits
      rw [List.filter_cons, List.filter_cons]
      simp [hv1, hv2, hid]
    rw [hk1]
    unfold keepFold
    simp only [List.foldl_cons, List.foldl_nil]
    have hs1 : keepStep none h1 = some h1 := rfl
    rw [hs1]
    have hred : keepStep (some h1) h2 =
        if fgt (pyFloat h2.score) (storedScoreF h1) then some h2 else some h1 := rfl
    rw [hred, valid_storedScore hv1, ← hsc, fgt_irrefl]
    simp

/-- Witness for C2: an integer id 7 and a string id "7" with equal scores;
the first-encountered entry is the one kept. -/
theorem mergeHits_keep_best_first_on_tie_witness :
    lookupAssoc (pyStr hitSevenInt.id) (buildById (concatAll [[hitSevenInt], [hitSevenStr]])) =
      some hitSevenInt := by
  exact mergeHits_keep_best_first_on_tie.2 hitSevenInt hitSevenStr
    (by decide) (by decide) (by decide) rfl

/-- Counterexample for C3: an entry whose score is the float `inf` — not a
finite number — survives merging instead of being dropped, because the code
only tests `isinstance(score, (int, float))`. -/
theorem mergeHits_keeps_nonfinite_score :
    mergeHits [[hitAinf]] 4 = [hitAinf] ∧ isFiniteScore hitAinf.score = false :=
  ⟨rfl, rfl⟩

/-- Claim C3 (amended): every entry whose id is missing (None) and every
entry whose score is not an int or float instance is dropped; non-finite
float scores pass the filter and are kept; merge is total.  The concrete
example still holds: merging `[{"id":"A","score":0.4}]` with
`[{"id":None,"score":0.9}, {"id":"C","score":"bad"}]` yields exactly
`[{"id":"A","score":0.4}]`. -/
theorem mergeHits_drops_missing_id_and_nonnumeric :
    (∀ (groups : List (List Hit)) (limit : Nat), ∀ h ∈ mergeHits groups limit,
      h.id ≠ HVal.vNone ∧ isNumeric h.score = true) ∧
    mergeHits [[hitA4], [hitNone9, hitCbad]] 4 = [hitA4] := by
  constructor
  · intro groups limit h hmem
    have hv := keptValues_valid (concatAll groups) h (mergeHits_subset_kept groups limit h hmem)
    unfold hitValid at hv
    rw [Bool.and_eq_true] at hv
    refine ⟨?_, hv.2⟩
    intro hc
    rw [hc] at hv
    simp at hv
  · rfl

/-- Witness for C3 (amended): the kept entry of the concrete example indeed
has a present id and a numeric score. -/
theorem mergeHits_drops_missing_id_and_nonnumeric_witness :
    hitA4.id ≠ HVal.vNone ∧ isNumeric hitA4.score = true := by
  have hev : mergeHits [[hitA4], [hitNone9, hitCbad]] 4 = [hitA4] := rfl
  exact mergeHits_drops_missing_id_and_nonnumeric.1 [[hitA4], [hitNone9, hitCbad]] 4
    hitA4 (by rw [hev]; exact List.mem_singleton.mpr rfl)

/-- Counterexample for C4: an index response containing a record whose
vector attribute is `None` makes `search_hybrid` raise — the whole call
fails instead of excluding that candidate — although the remaining record
alone would be processed successfully. -/
theorem searchHybrid_missing_vector_cex :
    okLength (searchHybridFrom [1, 0] [spGood, spBad] 4 (2/5)) = none ∧
    okLength (searchHybridFrom [1, 0] [spGood] 4 (2/5)) = some 1 :=
  ⟨rfl, rfl⟩

/-- Claim C4 (amended): a candidate record whose vector representation is
missing (`None`) causes `search_hybrid` to abort the whole search with an
error; no candidate is silently excluded. -/
theorem searchHybrid_aborts_on_missing_vector (q : Vec) (res : List ScoredPoint)
    (topk : Nat) (lam : ℚ) :
    ∀ r ∈ res, r.vector = VecField.missing →
      okLength (searchHybridFrom q res topk lam) = none := by
  intro r hr hvec
  have herr : extractVec r.vector = Except.error "TypeError: float() argument is NoneType" := by
    rw [hvec]
    rfl
  obtain ⟨e', he'⟩ := extractAll_error_of_mem hr herr
  have hne : res.isEmpty = false := by
    cases res with
    | nil => simp at hr
    | cons a as => rfl
  unfold searchHybridFrom
  rw [hne, he']
  rfl

/-- Witness for C4 (amended): the concrete malformed record aborts the
search at a different `topk`. -/
theorem searchHybrid_aborts_on_missing_vector_witness :
    okLength (searchHybridFrom [1, 0] [spGood, spBad] 7 (1/2)) = none := by
  exact searchHybrid_aborts_on_missing_vector [1, 0] [spGood, spBad] 7 (1/2)
    spBad (by simp) rfl

/-- Counterexample for C8: a `nan` score passes the `isinstance` filter and
reaches the sort, where CPython treats the reversed key sequence
`[3.0, nan, 1.0]` as a single ascending run; merging entries with scores
`1.0`, `nan`, `3.0` therefore returns them in input order — the output is
not sorted by score descending (its last entry strictly outscores its
first), and at `limit = 2` the excluded `3.0` entry outscores the included
`1.0` entry. -/
theorem mergeHits_nan_not_sorted_cex :
    mergeHits [[hitAone, hitBnan, hitCthree]] 3 = [hitAone, hitBnan, hitCthree] ∧
    fgt (pyFloat hitCthree.score) (pyFloat hitAone.score) = true ∧
    mergeHits [[hitAone, hitBnan, hitCthree]] 2 = [hitAone, hitBnan] :=
  ⟨rfl, rfl, rfl⟩

/-- Claim C8 (amended): for every input the merge output has length
`min limit (number kept)` and consists of kept entries; when no input entry
carries a `nan` score, the output is moreover the kept entries sorted by
score descending and truncated to the first `limit` — pairwise descending,
with no excluded kept entry outscoring an included one; the concrete
fusion scenario evaluates as specified. -/
theorem mergeHits_sorted_desc_truncated :
    (∀ (groups : List (List Hit)) (limit : Nat),
      (mergeHits groups limit).length = min limit (keptValues (concatAll groups)).length ∧
      (∀ h ∈ mergeHits groups limit, h ∈ keptValues (concatAll groups))) ∧
    (∀ (groups : List (List Hit)) (limit : Nat),
      (∀ h ∈ concatAll groups, pyFloat h.score ≠ FloatQ.nan) →
      (mergeHits groups limit).Pairwise hitDescP ∧
      (∀ h ∈ mergeHits groups limit, ∀ h2 ∈ keptValues (concatAll groups),
        h2 ∉ mergeHits groups limit →
          fgt (pyFloat h2.score) (pyFloat h.score) = false)) ∧
    mergeHits [[hitX3], [hitX9, hitY2]] 2 = [hitX9, hitY2] := by
  refine ⟨?_, ?_, ?_⟩
  · intro groups limit
    refine ⟨?_, mergeHits_subset_kept groups limit⟩
    unfold mergeHits
    rw [List.length_take, (pySortDesc_perm _).length_eq]
  · intro groups limit hnn
    have hnnk : ∀ h ∈ keptValues (concatAll groups), pyFloat h.score ≠ FloatQ.nan :=
      fun h hh => hnn h (keptValues_subset _ h hh)
    constructor
    · exact List.Pairwise.sublist (List.take_sublist _ _) (pySortDesc_pairwise _ hnnk)
    · intro h hh h2 hk2 hn2
      have hs2 : h2 ∈ pySortDesc (keptValues (concatAll groups)) :=
        (pySortDesc_perm _).mem_iff.mpr hk2
      have hsplit := List.take_append_drop limit (pySortDesc (keptValues (concatAll groups)))
      have hpw := pySortDesc_pairwise (keptValues (concatAll groups)) hnnk
      rw [← hsplit, List.pairwise_append] at hpw
      rw [← hsplit, List.mem_append] at hs2
      rcases hs2 with h1 | h1
      · exact absurd h1 hn2
      · exact hpw.2.2 h hh h2 h1
  · have hne : ∀ s, HVal.vStr s ≠ HVal.vNone := fun s h => by cases h
    have hneF : ∀ f, HVal.vFloat f ≠ HVal.vNone := fun f h => by cases h
    have hXY : ("X" : String) ≠ "Y" := by decide
    norm_num [mergeHits, concatAll, keptValues, buildById, mergeStep, lookupAssoc, updAssoc,
      pyStr, pyFloat, storedScoreF, fgt, flt, hitValid, isNumeric,
      pySortDesc, pySortAsc, initialRun, ascRun, descRun, binsortGo, binInsert, bisectGo,
      dummyHit, List.reverse_cons, hitX3, hitX9, hitY2, hne, hneF, hXY]

/-- Witness for C8 (amended): the concrete `nan`-free fusion input at
`limit = 1` — the excluded kept entry `Y` does not outscore the included
entry `X`. -/
theorem mergeHits_sorted_desc_truncated_witness :
    fgt (pyFloat hitY2.score) (pyFloat hitX9.score) = false := by
  have hne : ∀ s, HVal.vStr s ≠ HVal.vNone := fun s h => by cases h
  have hneF : ∀ f, HVal.vFloat f ≠ HVal.vNone := fun f h => by cases h
  have hXY : ("X" : String) ≠ "Y" := by decide
  have hev : mergeHits [[hitX3], [hitX9, hitY2]] 1 = [hitX9] := by
    norm_num [mergeHits, concatAll, keptValues, buildById, mergeStep, lookupAssoc, updAssoc,
      pyStr, pyFloat, storedScoreF, fgt, flt, hitValid, isNumeric,
      pySortDesc, pySortAsc, initialRun, ascRun, descRun, binsortGo, binInsert, bisectGo,
      dummyHit, List.reverse_cons, hitX3, hitX9, hitY2, hne, hneF, hXY]
  have hkv : keptValues (concatAll [[hitX3], [hitX9, hitY2]]) = [hitX9, hitY2] := by
    norm_num [concatAll, keptValues, buildById, mergeStep, lookupAssoc, updAssoc,
      pyStr, pyFloat, storedScoreF, fgt, hitValid, isNumeric,
      hitX3, hitX9, hitY2, hne, hneF, hXY]
  have hnnc : ∀ h ∈ concatAll [[hitX3], [hitX9, hitY2]], pyFloat h.score ≠ FloatQ.nan := by
    intro h hh
    simp only [concatAll, List.append_nil, List.cons_append, List.nil_append,
      List.mem_cons, List.not_mem_nil, or_false] at hh
    rcases hh with rfl | rfl | rfl <;> simp [hitX3, hitX9, hitY2, pyFloat]
  have hY9 : hitY2 ≠ hitX9 := by
    intro hc
    have := congrArg Hit.id hc
    simp [hitY2, hitX9] at this
  exact (mergeHits_sorted_desc_truncated.2.1 [[hitX3], [hitX9, hitY2]] 1 hnnc).2
    hitX9 (by rw [hev]; exact List.mem_singleton.mpr rfl)
    hitY2 (by rw [hkv]; simp)
    (by rw [hev]; simpa using hY9)

/-- Claim C9: merging a sequence together with a second copy of itself
yields exactly the same output as merging the sequence alone, for every
limit. -/
theorem mergeHits_idempotent (S : List Hit) (limit : Nat) :
    mergeHits [S, S] limit = mergeHits [S] limit := by
  unfold mergeHits keptValues
  have h2 : concatAll [S, S] = S ++ S := by simp [concatAll]
  have h1 : concatAll [S] = S := by simp [concatAll]
  rw [h1, h2, buildById_append_self]

/-- Claim C10: deduplication is by the string form of the id — the string
forms of the output's ids are pairwise distinct — so an integer id 7 and a
string id "7" are the same passage and at most one survives. -/
theorem mergeHits_dedup_by_str :
    (∀ (groups : List (List Hit)) (limit : Nat),
      ((mergeHits groups limit).map (fun h => pyStr h.id)).Nodup) ∧
    mergeHits [[hitSevenInt], [hitSevenStr]] 4 = [hitSevenInt] := by
  constructor
  · intro groups limit
    have hkv := keptValues_str_nodup (concatAll groups)
    have hsort :
        ((pySortDesc (keptValues (concatAll groups))).map (fun h => pyStr h.id)).Nodup := by
      rw [List.Perm.nodup_iff ((pySortDesc_perm _).map _)]
      exact hkv
    have htake := (List.take_sublist limit (pySortDesc (keptValues (concatAll groups)))).map
      (fun h => pyStr h.id)
    exact List.Nodup.sublist htake hsort
  · have hne : ∀ s, HVal.vStr s ≠ HVal.vNone := fun s h => by cases h
    have hne2 : ∀ n, HVal.vInt n ≠ HVal.vNone := fun n h => by cases h
    have hneF : ∀ f, HVal.vFloat f ≠ HVal.vNone := fun f h => by cases h
    have h7 : toString (7 : ℤ) = "7" := by decide
    norm_num [mergeHits, concatAll, keptValues, buildById, mergeStep, lookupAssoc, updAssoc,
      pyStr, pyFloat, storedScoreF, fgt, flt, hitValid, isNumeric,
      pySortDesc, pySortAsc, initialRun, ascRun, descRun, binsortGo, binInsert, bisectGo,
      dummyHit, List.reverse_cons, hitSevenInt, hitSevenStr, hne, hne2, hneF, h7]
